import Mathlib

/-!
Shallow embedding of `reconai/data/sequencer.py` (`Sequencer.generate_sequences`).

Modelling conventions:
* Python floats are modelled as `ℚ` (the quality values `1/2^x` and their sums
  are exact dyadic rationals).
* The numpy random generator `r = np.random.default_rng(seed)` is modelled as an
  abstract deterministic oracle `Rng`: `normal k` is the `k`-th value of
  `int(np.round(r.normal(loc=mean_slices_per_mha)))` (the mean only shifts the
  distribution, so it is absorbed into the oracle), and `choice k pop w n` is
  the `k`-th draw `r.choice(pop, size=n, replace=False, p=w / w.sum())`.
  A counter `k` threads the one continuous stream through all draws.
  `RngValid` states exactly the guarantees numpy documents for `choice` with
  `replace=False`: `n` distinct elements, all with nonzero weight.
* The two unbounded `while` loops are given fuel; running out of fuel returns
  `none` (the Python code would simply still be running).
* Python exceptions (the candidate-length `assert`, a missing case in the data
  loader, numpy's checks on `p`) are an `Except GenError` result.
* `np.power` on int64 wraps: `pow2_int64`, `qualityF`, `weightsF` model the
  wrapped power and the resulting float64 weight vector (negative at exponent
  63, infinite past it, NaN under the availability mask). The ℚ pipeline uses
  the idealized `quality`; `weightsF_eq_weights` proves the two coincide
  exactly when the modality has at most 65 slices.
-/

namespace Sequencer

/-- Python `Sequencer._len_of_values`: `sum([len(x) for x in obj.values()])`,
for the candidate dict `c_sequence` (keys `(loop, m)` for the id `f'{loop}_{m}'`,
which is injective in `(loop, m)`). -/
def lenOfValues (d : List ((Nat × Nat) × List Nat)) : Nat :=
  (d.map (fun e => e.2.length)).sum

/-- `sum([len(x) for x in obj.values()])` for the pool dict `available`
(keys `0..num_modalities-1`, modelled positionally). -/
def poolLen (p : List (List Nat)) : Nat :=
  (p.map List.length).sum

/-- Python `c_sequence[id] = c_sequence.get(id, []) + selected_slices.tolist()`:
insertion-ordered dict update that appends to the existing value. -/
def dictAppend (d : List ((Nat × Nat) × List Nat)) (key : Nat × Nat) (v : List Nat) :
    List ((Nat × Nat) × List Nat) :=
  match d with
  | [] => [(key, v)]
  | e :: rest => if e.1 = key then (e.1, e.2 ++ v) :: rest else e :: dictAppend rest key v

/-- The idealized (wrap-free) value of `1 / np.power(2, np.abs(i - 2))`:
`np.power` operates on int64 and wraps at exponent 63, so this equals the
code's float64 quality only for `|i - 2| ≤ 62` (slice index `i ≤ 64`);
`qualityF` below is the faithful float64 value including the wrap, and
`weightsF_eq_weights` delimits the domain on which the two coincide. -/
def quality (i : Nat) : ℚ :=
  1 / 2 ^ ((i : Int) - 2).natAbs

/-- Two's-complement wrap of an integer into int64:
`(n + 2^63) % 2^64 - 2^63`. -/
def int64_wrap (n : Int) : Int :=
  (n + 2 ^ 63) % 2 ^ 64 - 2 ^ 63

/-- `np.power(2, e)` on int64: exact `2^e` for `e ≤ 62`, wraps to `-2^63` at
`e = 63`, and to `0` for `e ≥ 64`. -/
def pow2_int64 (e : Nat) : Int :=
  int64_wrap (2 ^ e)

/-- The fragment of float64 the quality vector can reach: a finite (exactly
representable dyadic) rational, `+inf` (from `1/0` after the power wraps to
zero), or NaN (from `inf * 0` under the availability mask). -/
inductive F64
  | fin (q : ℚ)
  | inf
  | nan
deriving DecidableEq, Repr

/-- The faithful float64 value of `1 / np.power(2, np.abs(i - 2))` on int64
inputs: `1/k` is exact for `k = ±2^e`, and `1/0` is `+inf`. -/
def qualityF (i : Nat) : F64 :=
  if pow2_int64 ((i : Int) - 2).natAbs = 0 then .inf
  else .fin (1 / (pow2_int64 ((i : Int) - 2).natAbs : ℚ))

/-- float64 multiplication of a weight entry by an availability-mask entry
(`True`/`False`, i.e. `1.0`/`0.0`): note `inf * 0 = nan`. -/
def maskMul (x : F64) (b : Bool) : F64 :=
  match x, b with
  | .fin q, true => .fin q
  | .fin _, false => .fin 0
  | .inf, true => .inf
  | .inf, false => .nan
  | .nan, _ => .nan

/-- The faithful float64 weight vector `m_p` of lines 75-79: ones (or the
wrapped quality vector when `n_slices == 1`), masked by availability. -/
def weightsF (count : Nat) (cav : List Nat) (n : Nat) : List F64 :=
  (List.range count).map (fun i =>
    maskMul (if n = 1 then qualityF i else .fin 1) (decide (i ∈ cav)))

/-- An entry that makes `m_p / m_p.sum()` invalid for `Generator.choice`:
negative, infinite, or NaN. -/
def entryBad (x : F64) : Bool :=
  match x with
  | .fin q => decide (q < 0)
  | .inf => true
  | .nan => true

/-- The finite value of an entry (`0` for non-finite ones; only used where no
non-finite entry exists). -/
def finVal (x : F64) : ℚ :=
  match x with
  | .fin q => q
  | _ => 0

/-- Whether `Generator.choice(..., p=m_p / m_p.sum())` raises on this weight
vector: some entry is negative, infinite or NaN, or the sum is zero (making
the normalized probabilities NaN). -/
def pBad (w : List F64) : Bool :=
  w.any entryBad || decide ((w.map finVal).sum = 0)

/-- `int(np.clip(z, 0, hi))` for an integer-valued `z = np.round(r.normal(...))`. -/
def clampN (z : Int) (hi : Nat) : Nat :=
  min z.toNat hi

/-- The probability weight vector `m_p` over `slices[m] = np.arange(count)`:
`np.ones` (or `m_quality` when `n_slices == 1`), multiplied by the
`[(x in c_available[m]) for x in slices[m]]` mask. -/
def weights (count : Nat) (cav : List Nat) (n : Nat) : List ℚ :=
  (List.range count).map (fun i => (if n = 1 then quality i else 1) * (if i ∈ cav then 1 else 0))

/-- The sub-population of `pop` carrying nonzero weight: exactly the values
`r.choice(pop, size=n, replace=False, p=w / w.sum())` can return. -/
def support (pop : List Nat) (w : List ℚ) : List Nat :=
  ((pop.zip w).filter (fun e => e.2 ≠ 0)).map Prod.fst

/-- Abstract model of one `np.random.default_rng` stream; `k` counts the draws
consumed so far, so successive candidates share one continuous stream. -/
structure Rng where
  normal : Nat → Int
  choice : Nat → List Nat → List ℚ → Nat → List Nat

/-- The guarantees numpy's `Generator.choice(pop, size=n, replace=False, p)`
gives whenever it does not raise: `n` values, each drawn from the nonzero-weight
sub-population, pairwise distinct positions (hence distinct values for a
duplicate-free population). -/
def RngValid (g : Rng) : Prop :=
  ∀ k pop w n, n ≤ (support pop w).length →
    (g.choice k pop w n).length = n ∧
    (∀ x ∈ g.choice k pop w n, x ∈ support pop w) ∧
    (pop.Nodup → (g.choice k pop w n).Nodup)

/-- Errors a per-case task can raise: the candidate-length `assert`
(`SystemError: FATAL ...`), a missing case in the data loader (`KeyError`),
numpy rejecting the `p` vector (`ValueError`), and indexing an empty
candidate list (`IndexError`). -/
inductive GenError
  | assertLen
  | missingCase
  | badChoice
  | indexErr
deriving DecidableEq, Repr

/-- The mutable state of the candidate-generation loop (lines 58-90):
rng draw counter, `c_quality`, `c_sequence`, `c_available`, cursor `m`, `loop`. -/
structure CandState where
  k : Nat
  cqual : ℚ
  cseq : List ((Nat × Nat) × List Nat)
  cav : List (List Nat)
  m : Nat
  loop : Nat
deriving DecidableEq, Repr

/-- One iteration of the inner `while` body (lines 64-90): draw `n_slices`
when the current modality still has slices, select, record, consume, then
advance the round-robin cursor. -/
def candStep (seqLen maxS : Nat) (counts : List Nat) (g : Rng) (st : CandState) :
    Except GenError CandState :=
  let cLen := lenOfValues st.cseq
  let cavm := st.cav.getD st.m []
  let res : Except GenError CandState :=
    if 0 < cavm.length then
      let maxN := min cavm.length (min maxS (seqLen - cLen))
      let n := clampN (g.normal st.k) maxN
      let count := counts.getD st.m 0
      let w := weights count cavm n
      if w.sum = 0 then .error .badChoice
      else if (support (List.range count) w).length < n then .error .badChoice
      else
        let sel := g.choice (st.k + 1) (List.range count) w n
        .ok { st with
          k := st.k + 2
          cqual := st.cqual + (sel.map quality).sum
          cseq := dictAppend st.cseq (st.loop, st.m) sel
          cav := st.cav.set st.m (sel.foldl List.erase cavm) }
    else .ok st
  match res with
  | .error e => .error e
  | .ok st2 =>
    let m2 := (st.m + 1) % st.cav.length
    .ok { st2 with m := m2, loop := st2.loop + (if m2 = 0 then 1 else 0) }

/-- The inner `while (c_sequence_len := ...) < seq_len` loop plus the final
`assert` (lines 63-93), with fuel; `none` models nontermination. -/
def genCand (seqLen maxS : Nat) (counts : List Nat) (g : Rng) :
    Nat → CandState → Except GenError (Option CandState)
  | 0, _ => .ok none
  | fuel + 1, st =>
    if lenOfValues st.cseq < seqLen then
      match candStep seqLen maxS counts g st with
      | .error e => .error e
      | .ok st2 => genCand seqLen maxS counts g fuel st2
    else if lenOfValues st.cseq = seqLen then .ok (some st)
    else .error .assertLen

/-- Modelled from the spec (the repository's `reconai/data/sequence.py` is not
under `src/`): a `Sequence` exposes its owning case identifier and the mapping
from `(round, modality)` to the ordered slice-index list. -/
structure Sequence where
  caseId : String
  data : List ((Nat × Nat) × List Nat)
deriving DecidableEq, Repr

/-- A fresh candidate start: `c_quality = 0`, `c_sequence = {}`,
`c_available = deepcopy(available)`, `m, loop = 0, 0`. -/
def initCand (pool : List (List Nat)) (k : Nat) : CandState :=
  { k := k, cqual := 0, cseq := [], cav := pool, m := 0, loop := 0 }

/-- The `for _ in range(100)` candidate batch (lines 57-94), threading the rng
counter through successive candidates; returns the candidates in generation
order together with the final counter. -/
def genBatch (seqLen maxS : Nat) (counts : List Nat) (g : Rng) (caseId : String) (fuel : Nat) :
    Nat → Nat → List (List Nat) →
    Except GenError (Option (List (ℚ × Sequence × List (List Nat)) × Nat))
  | 0, k, _ => .ok (some ([], k))
  | i + 1, k, pool =>
    match genCand seqLen maxS counts g fuel (initCand pool k) with
    | .error e => .error e
    | .ok none => .ok none
    | .ok (some c) =>
      match genBatch seqLen maxS counts g caseId fuel i c.k pool with
      | .error e => .error e
      | .ok none => .ok none
      | .ok (some (rest, k2)) =>
        .ok (some ((c.cqual, Sequence.mk caseId c.cseq, c.cav) :: rest, k2))

/-- The sort key `np.abs(q - c[0])` of line 97. -/
def candKey (target : ℚ) (c : ℚ × Sequence × List (List Nat)) : ℚ :=
  |target - c.1|

/-- `sequence_candidates.sort(key=lambda c: np.abs(q - c[0]))`: Python `sort`
is stable, modelled by the stable `List.insertionSort`. -/
def sortCands (target : ℚ) (cs : List (ℚ × Sequence × List (List Nat))) :
    List (ℚ × Sequence × List (List Nat)) :=
  List.insertionSort (fun a b => candKey target a ≤ candKey target b) cs

/-- The per-case `while True` loop of `_generate_sequences` (lines 49-104):
exhaustion check, candidate batch, greedy selection, accept-or-stop. -/
def genLoop (seqLen maxS : Nat) (target : ℚ) (counts : List Nat) (g : Rng) (caseId : String)
    (fuel : Nat) : Nat → Nat → List (List Nat) → List Sequence →
    Except GenError (Option (List Sequence))
  | 0, _, _, _ => .ok none
  | rounds + 1, k, pool, acc =>
    if poolLen pool < seqLen then .ok (some acc)
    else
      match genBatch seqLen maxS counts g caseId fuel 100 k pool with
      | .error e => .error e
      | .ok none => .ok none
      | .ok (some (cands, k2)) =>
        match (sortCands target cands).head? with
        | none => .error .indexErr
        | some best =>
          if best.1 < target then .ok (some acc)
          else genLoop seqLen maxS target counts g caseId fuel rounds k2 best.2.2
            (acc ++ [best.2.1])

/-- Modelled from the spec (the repository's `reconai/data/dataloader.py` is
not under `src/`): the Slice Source exposes a stable ordered case enumeration
`keys()` and per-case ordered modality slice counts `shapes(case)` (the
`shapes[m][0]` the sequencer reads); a missing case is a lookup failure. -/
structure DataLoader where
  keys : List String
  shapes : String → Option (List Nat)

/-- Python dict assignment `d[key] = v`: overwrite in place or append. -/
def dictSet (d : List (String × Int)) (key : String) (v : Int) : List (String × Int) :=
  match d with
  | [] => [(key, v)]
  | e :: rest => if e.1 = key then (e.1, v) :: rest else e :: dictSet rest key v

/-- `seeds = {case: seed + s for s, case in enumerate(self._dataloader.keys())}`. -/
def seedsOf (seed : Int) (keys : List String) : List (String × Int) :=
  keys.enum.foldl (fun d sc => dictSet d sc.2 (seed + sc.1)) []

/-- `np.clip(q, 0, 1)`. -/
def clip01 (x : ℚ) : ℚ :=
  min (max x 0) 1

/-- The per-case task `_generate_sequences(case)` (lines 42-104): build the rng
from `seeds[case]` (or an unseeded source `ent case` when `seed < 0`), look the
case up in the data loader, run the greedy loop on the full initial pool. -/
def perCaseRun (mk : Int → Rng) (ent : String → Rng) (seeds : List (String × Int)) (seed : Int)
    (seqLen maxS : Nat) (target : ℚ) (dl : DataLoader) (fuel : Nat) (caseId : String) :
    Except GenError (Option (List Sequence)) :=
  let g := if 0 ≤ seed then mk ((seeds.lookup caseId).getD 0) else ent caseId
  match dl.shapes caseId with
  | none => .error .missingCase
  | some counts =>
    genLoop seqLen maxS target counts g caseId fuel fuel 0 (counts.map List.range) []

/-- The thread-pool fan-out/fan-in (lines 106-113): one isolated task per case,
every `future.result()` re-raises a task error, so any failing case fails the
whole call; `none` models a task that is still running. -/
def runCases (mk : Int → Rng) (ent : String → Rng) (seeds : List (String × Int)) (seed : Int)
    (seqLen maxS : Nat) (target : ℚ) (dl : DataLoader) (fuel : Nat) :
    List String → Except GenError (Option (List (String × List Sequence)))
  | [] => .ok (some [])
  | c :: rest =>
    match perCaseRun mk ent seeds seed seqLen maxS target dl fuel c with
    | .error e => .error e
    | .ok none => .ok none
    | .ok (some seqs) =>
      match runCases mk ent seeds seed seqLen maxS target dl fuel rest with
      | .error e => .error e
      | .ok none => .ok none
      | .ok (some coll) => .ok (some ((c, seqs) :: coll))

/-- `Sequencer.generate_sequences`: target `q = np.clip(q, 0, 1) * seq_len`,
per-case seeds, one task per case, results keyed by case. -/
def generate_sequences (mk : Int → Rng) (ent : String → Rng) (dl : DataLoader) (fuel : Nat)
    (seed : Int) (seqLen maxS : Nat) (q : ℚ) :
    Except GenError (Option (List (String × List Sequence))) :=
  let target := clip01 q * seqLen
  let seeds := seedsOf seed dl.keys
  runCases mk ent seeds seed seqLen maxS target dl fuel dl.keys

/-! Derived observers and invariants used by the verification. -/

/-- All slice indices of a candidate dict, across every `(round, modality)` entry. -/
def allIndices (d : List ((Nat × Nat) × List Nat)) : List Nat :=
  (d.map (fun e => e.2)).flatten

/-- The slice indices a candidate dict holds for modality `m`. -/
def modIndices (d : List ((Nat × Nat) × List Nat)) (m : Nat) : List Nat :=
  ((d.filter (fun e => e.1.2 == m)).map (fun e => e.2)).flatten

/-- Aggregate quality of a list of slice indices. -/
def qualSum (l : List Nat) : ℚ :=
  (l.map quality).sum

/-- The earliest candidate of the batch whose sort key is minimal: what
`sequence_candidates.sort(key=...)[0]` returns, since Python's sort is stable. -/
def firstArgmin (target : ℚ) :
    List (ℚ × Sequence × List (List Nat)) → Option (ℚ × Sequence × List (List Nat))
  | [] => none
  | c :: cs =>
    match firstArgmin target cs with
    | none => some c
    | some b => if candKey target b < candKey target c then some b else some c

/-- The cursor advance at the end of each inner-loop iteration:
`m = (m + 1) % len(c_available)` and `loop += 1` on wrap-around. -/
def advanceCursor (st : CandState) : CandState :=
  let m2 := (st.m + 1) % st.cav.length
  { st with m := m2, loop := st.loop + (if m2 = 0 then 1 else 0) }

/-- The state after the draw half of one inner-loop iteration (before the
cursor advance), spelling out the `n_slices` clamp and the selection. -/
def drawResult (seqLen maxS : Nat) (counts : List Nat) (g : Rng) (st : CandState) : CandState :=
  let cavm := st.cav.getD st.m []
  let n := clampN (g.normal st.k) (min cavm.length (min maxS (seqLen - lenOfValues st.cseq)))
  let sel := g.choice (st.k + 1) (List.range (counts.getD st.m 0))
    (weights (counts.getD st.m 0) cavm n) n
  { st with
    k := st.k + 2
    cqual := st.cqual + (sel.map quality).sum
    cseq := dictAppend st.cseq (st.loop, st.m) sel
    cav := st.cav.set st.m (sel.foldl List.erase cavm) }

/-- Well-formedness of a slice pool for modality slice counts `counts`:
positionally one entry per modality, each a duplicate-free list of indices
below that modality's slice count. -/
def PoolInv (counts : List Nat) (pool : List (List Nat)) : Prop :=
  pool.length = counts.length ∧
  ∀ m, (pool.getD m []).Nodup ∧ ∀ x ∈ pool.getD m [], x < counts.getD m 0

/-- What the greedy selector may rely on for every candidate of a batch
generated from `pool`: a well-formed remaining pool, a full-length record,
per-modality conservation against `pool`, quality equal to the sum of the
selected slice qualities, pool shrinkage, the right owning case, and record
keys naming a real modality. -/
def CandProp (seqLen : Nat) (counts : List Nat) (pool : List (List Nat)) (caseId : String)
    (cd : ℚ × Sequence × List (List Nat)) : Prop :=
  PoolInv counts cd.2.2 ∧
  lenOfValues cd.2.1.data = seqLen ∧
  (∀ m, ((cd.2.2.getD m [] : Multiset Nat) + ↑(modIndices cd.2.1.data m) = ↑(pool.getD m []))) ∧
  cd.1 = qualSum (allIndices cd.2.1.data) ∧
  (∀ m, (cd.2.2.getD m []).Sublist (pool.getD m [])) ∧
  cd.2.1.caseId = caseId ∧
  (∀ e ∈ cd.2.1.data, e.1.2 < counts.length)

/-- What one finished case contributes to the Sequence Collection: every
accepted Sequence is full-length and owned by the case, and for each modality
the indices across all accepted Sequences are pairwise distinct. -/
def CaseOut (seqLen : Nat) (counts : List Nat) (caseId : String) (seqs : List Sequence) : Prop :=
  (∀ s ∈ seqs, lenOfValues s.data = seqLen ∧ s.caseId = caseId) ∧
  (∀ m, ((seqs.map (fun s => modIndices s.data m)).flatten).Nodup)

instance {ε α : Type} [DecidableEq ε] [DecidableEq α] : DecidableEq (Except ε α) := fun a b =>
  match a, b with
  | .ok x, .ok y => if h : x = y then .isTrue (by rw [h]) else .isFalse (by simp [h])
  | .error x, .error y => if h : x = y then .isTrue (by rw [h]) else .isFalse (by simp [h])
  | .ok _, .error _ => .isFalse (by simp)
  | .error _, .ok _ => .isFalse (by simp)

/-- A concrete deterministic oracle used to exercise the model on closed inputs:
every normal draw is the integer `2`, and `choice` returns the first `n`
nonzero-weight values. -/
def demoRng : Rng :=
  { normal := fun _ => 2
    choice := fun _ pop w n => (support pop w).take n }

instance : DecidableEq (List (ℚ × Sequence × List (List Nat)) × Nat) :=
  instDecidableEqProd

/-- A trivial oracle, used as a second "unseeded" source to show the unseeded
source is irrelevant when a non-negative seed is supplied. -/
def zeroRng : Rng :=
  { normal := fun _ => 0
    choice := fun _ _ _ _ => [] }

/-- The Sequence the demo oracle produces in the five-slice scenario. -/
def demoSeq : Sequence :=
  { caseId := "a", data := [((0, 0), [0, 1]), ((1, 0), [2, 3]), ((2, 0), [4])] }

/-- The candidate the demo oracle produces from a one-slice pool. -/
def demoCand : ℚ × Sequence × List (List Nat) :=
  (1/4, Sequence.mk "c" [((0, 0), [0])], [[]])

/-- A one-case Slice Source with one modality of five slices. -/
def demoLoader : DataLoader :=
  { keys := ["a"]
    shapes := fun c => if c = "a" then some [5] else none }

/-- A two-case Slice Source whose second case is missing from `shapes`. -/
def brokenLoader : DataLoader :=
  { keys := ["a", "b"]
    shapes := fun c => if c = "a" then some [5] else none }

/-! ## Basic bookkeeping lemmas -/

theorem getD_set_self : ∀ (l : List (List Nat)) (i : Nat) (v : List Nat), i < l.length →
    (l.set i v).getD i [] = v
  | _ :: _, 0, _, _ => rfl
  | _ :: xs, i + 1, v, h => getD_set_self xs i v (Nat.lt_of_succ_lt_succ h)

theorem getD_set_ne : ∀ (l : List (List Nat)) (i j : Nat) (v : List Nat), i ≠ j →
    (l.set i v).getD j [] = l.getD j []
  | [], _, _, _, _ => rfl
  | _ :: _, 0, 0, _, h => absurd rfl h
  | _ :: _, 0, _ + 1, _, _ => rfl
  | _ :: _, _ + 1, 0, _, _ => rfl
  | _ :: xs, i + 1, j + 1, v, h =>
    getD_set_ne xs i j v (fun hij => h (congrArg Nat.succ hij))

theorem getD_map_range : ∀ (counts : List Nat) (m : Nat),
    (counts.map List.range).getD m [] = List.range (counts.getD m 0)
  | [], _ => rfl
  | _ :: _, 0 => rfl
  | _ :: cs, m + 1 => getD_map_range cs m

theorem getD_of_length_le : ∀ (l : List (List Nat)) (m : Nat), l.length ≤ m →
    l.getD m [] = []
  | [], _, _ => rfl
  | _ :: xs, m + 1, h => getD_of_length_le xs m (Nat.le_of_succ_le_succ h)

theorem lt_length_of_getD_ne_nil (l : List (List Nat)) (m : Nat)
    (h : l.getD m [] ≠ []) : m < l.length := by
  by_contra hm
  exact h (getD_of_length_le l m (Nat.le_of_not_lt hm))

theorem lenOfValues_nil : lenOfValues [] = 0 := rfl

theorem lenOfValues_cons (e : (Nat × Nat) × List Nat) (d : List ((Nat × Nat) × List Nat)) :
    lenOfValues (e :: d) = e.2.length + lenOfValues d := by
  simp [lenOfValues]

theorem lenOfValues_dictAppend (d : List ((Nat × Nat) × List Nat)) (key : Nat × Nat)
    (v : List Nat) : lenOfValues (dictAppend d key v) = lenOfValues d + v.length := by
  induction d with
  | nil => simp [dictAppend, lenOfValues]
  | cons e rest ih =>
    by_cases h : e.1 = key
    · simp [dictAppend, h, lenOfValues_cons]
      omega
    · simp [dictAppend, h, lenOfValues_cons, ih]
      omega

theorem allIndices_nil : allIndices [] = [] := rfl

theorem allIndices_cons (e : (Nat × Nat) × List Nat) (d : List ((Nat × Nat) × List Nat)) :
    allIndices (e :: d) = e.2 ++ allIndices d := by
  simp [allIndices]

theorem allIndices_dictAppend (d : List ((Nat × Nat) × List Nat)) (key : Nat × Nat)
    (v : List Nat) :
    (allIndices (dictAppend d key v) : Multiset Nat) = ↑(allIndices d) + ↑v := by
  induction d with
  | nil => simp [dictAppend, allIndices]
  | cons e rest ih =>
    by_cases h : e.1 = key
    · simp only [dictAppend, h, if_pos, allIndices_cons, ← Multiset.coe_add]
      abel
    · simp only [dictAppend, h, if_neg, not_false_iff, allIndices_cons, ← Multiset.coe_add, ih]
      abel

theorem modIndices_nil (m : Nat) : modIndices [] m = [] := rfl

theorem modIndices_cons (e : (Nat × Nat) × List Nat) (d : List ((Nat × Nat) × List Nat))
    (m : Nat) : modIndices (e :: d) m =
      (if e.1.2 = m then e.2 else []) ++ modIndices d m := by
  by_cases h : e.1.2 = m <;> simp [modIndices, h]

theorem modIndices_dictAppend (d : List ((Nat × Nat) × List Nat)) (key : Nat × Nat)
    (v : List Nat) (m : Nat) :
    (modIndices (dictAppend d key v) m : Multiset Nat) =
      ↑(modIndices d m) + (if key.2 = m then (↑v : Multiset Nat) else 0) := by
  induction d with
  | nil =>
    by_cases h : key.2 = m <;> simp [dictAppend, modIndices, h]
  | cons e rest ih =>
    by_cases h : e.1 = key
    · subst h
      by_cases hm : e.1.2 = m
      · simp only [dictAppend, if_pos, modIndices_cons, hm, if_true, ← Multiset.coe_add]
        abel
      · simp [dictAppend, modIndices_cons, hm]
    · by_cases hm : e.1.2 = m
      · simp only [dictAppend, h, if_neg, not_false_iff, modIndices_cons, hm, if_true,
          ← Multiset.coe_add, ih]
        abel
      · simp [dictAppend, h, modIndices_cons, hm, ih]

theorem length_allIndices (d : List ((Nat × Nat) × List Nat)) :
    (allIndices d).length = lenOfValues d := by
  induction d with
  | nil => rfl
  | cons e rest ih => simp [allIndices_cons, lenOfValues_cons, ih]

theorem qualSum_perm {l1 l2 : List Nat} (h : l1.Perm l2) : qualSum l1 = qualSum l2 :=
  List.Perm.sum_eq (List.Perm.map quality h)

theorem qualSum_append (l1 l2 : List Nat) : qualSum (l1 ++ l2) = qualSum l1 + qualSum l2 := by
  simp [qualSum]

theorem quality_pos (i : Nat) : 0 < quality i := by
  have h2 : (0 : ℚ) < 2 ^ ((i : Int) - 2).natAbs := pow_pos (by norm_num) _
  exact div_pos one_pos h2

theorem clampN_le (z : Int) (hi : Nat) : clampN z hi ≤ hi :=
  Nat.min_le_right _ _

/-! ## Weight vector and selection lemmas -/

theorem support_cons_pos (p : Nat) (x : ℚ) (pop : List Nat) (w : List ℚ) (hx : x ≠ 0) :
    support (p :: pop) (x :: w) = p :: support pop w := by
  simp [support, hx]

theorem support_cons_zero (p : Nat) (pop : List Nat) (w : List ℚ) :
    support (p :: pop) (0 :: w) = support pop w := by
  simp [support]

theorem support_sublist : ∀ (pop : List Nat) (w : List ℚ), (support pop w).Sublist pop
  | [], _ => by simp [support]
  | _ :: _, [] => by simp [support]
  | p :: pop, x :: w => by
    by_cases hx : x = 0
    · subst hx
      exact (by simpa [support_cons_zero] using (support_sublist pop w).cons p)
    · rw [support_cons_pos p x pop w hx]
      exact (support_sublist pop w).cons₂ p

theorem support_map (f : Nat → ℚ) : ∀ pop : List Nat,
    support pop (pop.map f) = pop.filter (fun i => f i ≠ 0)
  | [] => rfl
  | p :: pop => by
    by_cases h : f p = 0
    · simp only [List.map_cons, h, support_cons_zero, List.filter_cons]
      simp [h, support_map f pop]
    · simp only [List.map_cons, support_cons_pos p (f p) pop (pop.map f) h, List.filter_cons]
      simp [h, support_map f pop]

theorem support_range_weights (c : Nat) (cav : List Nat) (n : Nat) :
    support (List.range c) (weights c cav n) =
      (List.range c).filter (fun i => i ∈ cav) := by
  rw [weights, support_map]
  apply List.filter_congr
  intro i _
  by_cases hin : i ∈ cav
  · have h1 : (if n = 1 then quality i else 1) ≠ 0 := by
      by_cases hn : n = 1
      · simp [hn, (quality_pos i).ne.symm]
      · simp [hn]
    simp [hin, h1]
  · simp [hin]

theorem mem_support_range_weights {c : Nat} {cav : List Nat} {n x : Nat}
    (h : x ∈ support (List.range c) (weights c cav n)) : x ∈ cav := by
  rw [support_range_weights] at h
  exact of_decide_eq_true (List.mem_filter.mp h).2

theorem length_support_range_weights (c : Nat) (cav : List Nat) (n : Nat)
    (hnd : cav.Nodup) (hlt : ∀ x ∈ cav, x < c) :
    (support (List.range c) (weights c cav n)).length = cav.length := by
  rw [support_range_weights]
  have hperm : ((List.range c).filter (fun i => i ∈ cav)).Perm cav := by
    rw [List.perm_ext_iff_of_nodup ((List.nodup_range c).filter _) hnd]
    intro a
    simp only [List.mem_filter, List.mem_range, decide_eq_true_eq]
    exact ⟨fun h => h.2, fun h => ⟨hlt a h, h⟩⟩
  exact hperm.length_eq

theorem weights_sum_pos (c : Nat) (cav : List Nat) (n : Nat) (hne : cav ≠ [])
    (hlt : ∀ x ∈ cav, x < c) : 0 < (weights c cav n).sum := by
  obtain ⟨i0, hi0⟩ := List.exists_mem_of_ne_nil cav hne
  have hi0c : i0 < c := hlt i0 hi0
  have hmem : ((if n = 1 then quality i0 else 1) * (if i0 ∈ cav then 1 else 0) : ℚ) ∈
      weights c cav n := by
    exact List.mem_map_of_mem _ (List.mem_range.mpr hi0c)
  have hpos : (0 : ℚ) < (if n = 1 then quality i0 else 1) * (if i0 ∈ cav then 1 else 0) := by
    have h1 : (0:ℚ) < (if n = 1 then quality i0 else 1) := by
      by_cases hn : n = 1
      · simpa [hn] using quality_pos i0
      · simp [hn]
    simpa [hi0] using h1
  have hnonneg : ∀ x ∈ weights c cav n, (0:ℚ) ≤ x := by
    intro x hx
    obtain ⟨i, _, rfl⟩ := List.mem_map.mp hx
    have h1 : (0:ℚ) ≤ (if n = 1 then quality i else 1) := by
      by_cases hn : n = 1
      · simpa [hn] using (quality_pos i).le
      · simp [hn]
    have h2 : (0:ℚ) ≤ (if i ∈ cav then (1:ℚ) else 0) := by
      by_cases hi : i ∈ cav <;> simp [hi]
    exact mul_nonneg h1 h2
  exact lt_of_lt_of_le hpos (List.single_le_sum hnonneg _ hmem)

theorem foldl_erase_sublist : ∀ (sel cav : List Nat), (sel.foldl List.erase cav).Sublist cav
  | [], _ => List.Sublist.refl _
  | s :: sel, cav => by
    have h1 : ((s :: sel).foldl List.erase cav) = sel.foldl List.erase (cav.erase s) := rfl
    rw [h1]
    exact (foldl_erase_sublist sel (cav.erase s)).trans (cav.erase_sublist s)

theorem foldl_erase_multiset : ∀ (sel cav : List Nat), sel.Nodup → (∀ x ∈ sel, x ∈ cav) →
    (↑(sel.foldl List.erase cav) : Multiset Nat) + ↑sel = ↑cav
  | [], cav, _, _ => by simp
  | s :: sel, cav, hnd, hsub => by
    have hs : s ∈ cav := hsub s (List.mem_cons_self s sel)
    have hnd2 : sel.Nodup := (List.nodup_cons.mp hnd).2
    have hns : s ∉ sel := (List.nodup_cons.mp hnd).1
    have hsub2 : ∀ x ∈ sel, x ∈ cav.erase s := by
      intro x hx
      have hxs : x ≠ s := fun he => hns (he ▸ hx)
      exact (List.mem_erase_of_ne hxs).mpr (hsub x (List.mem_cons_of_mem s hx))
    have ih := foldl_erase_multiset sel (cav.erase s) hnd2 hsub2
    have h1 : ((s :: sel).foldl List.erase cav) = sel.foldl List.erase (cav.erase s) := rfl
    rw [h1]
    have h2 : (↑(s :: sel) : Multiset Nat) = s ::ₘ ↑sel := rfl
    rw [h2]
    have h3 : (↑(sel.foldl List.erase (cav.erase s)) : Multiset Nat) + (s ::ₘ ↑sel) =
        s ::ₘ ((↑(sel.foldl List.erase (cav.erase s)) : Multiset Nat) + ↑sel) := by
      simp [Multiset.add_cons]
    rw [h3, ih, ← Multiset.coe_erase, Multiset.cons_erase (by exact_mod_cast hs)]

theorem mem_dictAppend_key : ∀ (d : List ((Nat × Nat) × List Nat)) (key : Nat × Nat)
    (v : List Nat) (e : (Nat × Nat) × List Nat), e ∈ dictAppend d key v →
    e ∈ d ∨ e.1 = key
  | [], key, v, e, h => by
    simp only [dictAppend, List.mem_singleton] at h
    exact Or.inr (by rw [h])
  | e0 :: rest, key, v, e, h => by
    by_cases h0 : e0.1 = key
    · rw [dictAppend, if_pos h0] at h
      rcases List.mem_cons.mp h with h1 | h1
      · exact Or.inr (by rw [h1, ← h0])
      · exact Or.inl (List.mem_cons_of_mem _ h1)
    · rw [dictAppend, if_neg h0] at h
      rcases List.mem_cons.mp h with h1 | h1
      · exact Or.inl (h1 ▸ List.mem_cons_self _ _)
      · rcases mem_dictAppend_key rest key v e h1 with h2 | h2
        · exact Or.inl (List.mem_cons_of_mem _ h2)
        · exact Or.inr h2

/-! ## One iteration of the candidate loop -/

theorem candStep_eq_skip (seqLen maxS : Nat) (counts : List Nat) (g : Rng) (st : CandState)
    (hm : ¬ 0 < (st.cav.getD st.m []).length) :
    candStep seqLen maxS counts g st = .ok (advanceCursor st) := by
  simp only [candStep, hm, if_false, advanceCursor]

theorem candStep_eq_draw (seqLen maxS : Nat) (counts : List Nat) (g : Rng) (st : CandState)
    (hm : 0 < (st.cav.getD st.m []).length)
    (hsum : ¬ (weights (counts.getD st.m 0) (st.cav.getD st.m [])
        (clampN (g.normal st.k) (min (st.cav.getD st.m []).length
          (min maxS (seqLen - lenOfValues st.cseq))))).sum = 0)
    (hsup : ¬ (support (List.range (counts.getD st.m 0))
        (weights (counts.getD st.m 0) (st.cav.getD st.m [])
          (clampN (g.normal st.k) (min (st.cav.getD st.m []).length
            (min maxS (seqLen - lenOfValues st.cseq)))))).length <
        clampN (g.normal st.k) (min (st.cav.getD st.m []).length
          (min maxS (seqLen - lenOfValues st.cseq)))) :
    candStep seqLen maxS counts g st =
      .ok (advanceCursor (drawResult seqLen maxS counts g st)) := by
  simp only [candStep, hm, if_true, hsum, if_false, hsup, drawResult, advanceCursor]
  simp [List.length_set]

theorem candStep_checks (seqLen maxS : Nat) (counts : List Nat) (g : Rng) (st : CandState)
    (hinv : PoolInv counts st.cav) (hm : 0 < (st.cav.getD st.m []).length) :
    ¬ (weights (counts.getD st.m 0) (st.cav.getD st.m [])
        (clampN (g.normal st.k) (min (st.cav.getD st.m []).length
          (min maxS (seqLen - lenOfValues st.cseq))))).sum = 0 ∧
    ¬ (support (List.range (counts.getD st.m 0))
        (weights (counts.getD st.m 0) (st.cav.getD st.m [])
          (clampN (g.normal st.k) (min (st.cav.getD st.m []).length
            (min maxS (seqLen - lenOfValues st.cseq)))))).length <
        clampN (g.normal st.k) (min (st.cav.getD st.m []).length
          (min maxS (seqLen - lenOfValues st.cseq))) := by
  have hne : st.cav.getD st.m [] ≠ [] := by
    intro h
    rw [h] at hm
    exact Nat.lt_irrefl 0 hm
  have hlt : ∀ x ∈ st.cav.getD st.m [], x < counts.getD st.m 0 := (hinv.2 st.m).2
  constructor
  · exact (weights_sum_pos (counts.getD st.m 0) (st.cav.getD st.m []) _ hne hlt).ne.symm
  · rw [length_support_range_weights _ _ _ (hinv.2 st.m).1 hlt]
    exact Nat.not_lt.mpr (le_trans (Nat.min_le_right _ _) (Nat.min_le_left _ _))

theorem candStep_never_fails (seqLen maxS : Nat) (counts : List Nat) (g : Rng) (st : CandState)
    (hinv : PoolInv counts st.cav) :
    ∃ st2, candStep seqLen maxS counts g st = .ok st2 := by
  by_cases hm : 0 < (st.cav.getD st.m []).length
  · obtain ⟨hsum, hsup⟩ := candStep_checks seqLen maxS counts g st hinv hm
    exact ⟨_, candStep_eq_draw seqLen maxS counts g st hm hsum hsup⟩
  · exact ⟨_, candStep_eq_skip seqLen maxS counts g st hm⟩

theorem sel_facts (seqLen maxS : Nat) (counts : List Nat) (g : Rng) (st : CandState)
    (hg : RngValid g) (hinv : PoolInv counts st.cav) :
    (g.choice (st.k + 1) (List.range (counts.getD st.m 0))
        (weights (counts.getD st.m 0) (st.cav.getD st.m [])
          (clampN (g.normal st.k) (min (st.cav.getD st.m []).length
            (min maxS (seqLen - lenOfValues st.cseq)))))
        (clampN (g.normal st.k) (min (st.cav.getD st.m []).length
          (min maxS (seqLen - lenOfValues st.cseq))))).length =
      clampN (g.normal st.k) (min (st.cav.getD st.m []).length
        (min maxS (seqLen - lenOfValues st.cseq))) ∧
    (g.choice (st.k + 1) (List.range (counts.getD st.m 0))
        (weights (counts.getD st.m 0) (st.cav.getD st.m [])
          (clampN (g.normal st.k) (min (st.cav.getD st.m []).length
            (min maxS (seqLen - lenOfValues st.cseq)))))
        (clampN (g.normal st.k) (min (st.cav.getD st.m []).length
          (min maxS (seqLen - lenOfValues st.cseq))))).Nodup ∧
    ∀ x ∈ g.choice (st.k + 1) (List.range (counts.getD st.m 0))
        (weights (counts.getD st.m 0) (st.cav.getD st.m [])
          (clampN (g.normal st.k) (min (st.cav.getD st.m []).length
            (min maxS (seqLen - lenOfValues st.cseq)))))
        (clampN (g.normal st.k) (min (st.cav.getD st.m []).length
          (min maxS (seqLen - lenOfValues st.cseq)))),
      x ∈ st.cav.getD st.m [] := by
  have hlt : ∀ x ∈ st.cav.getD st.m [], x < counts.getD st.m 0 := (hinv.2 st.m).2
  have hlen : (support (List.range (counts.getD st.m 0))
      (weights (counts.getD st.m 0) (st.cav.getD st.m [])
        (clampN (g.normal st.k) (min (st.cav.getD st.m []).length
          (min maxS (seqLen - lenOfValues st.cseq)))))).length =
      (st.cav.getD st.m []).length :=
    length_support_range_weights _ _ _ (hinv.2 st.m).1 hlt
  have hn : clampN (g.normal st.k) (min (st.cav.getD st.m []).length
      (min maxS (seqLen - lenOfValues st.cseq))) ≤
      (support (List.range (counts.getD st.m 0))
        (weights (counts.getD st.m 0) (st.cav.getD st.m [])
          (clampN (g.normal st.k) (min (st.cav.getD st.m []).length
            (min maxS (seqLen - lenOfValues st.cseq)))))).length := by
    rw [hlen]
    exact le_trans (Nat.min_le_right _ _) (Nat.min_le_left _ _)
  obtain ⟨h1, h2, h3⟩ := hg (st.k + 1) (List.range (counts.getD st.m 0)) _ _ hn
  exact ⟨h1, h3 (List.nodup_range _), fun x hx => mem_support_range_weights (h2 x hx)⟩

theorem advanceCursor_cseq (st : CandState) : (advanceCursor st).cseq = st.cseq := rfl

theorem advanceCursor_cav (st : CandState) : (advanceCursor st).cav = st.cav := rfl

theorem advanceCursor_cqual (st : CandState) : (advanceCursor st).cqual = st.cqual := rfl

theorem drawResult_cseq (seqLen maxS : Nat) (counts : List Nat) (g : Rng) (st : CandState) :
    (drawResult seqLen maxS counts g st).cseq =
      dictAppend st.cseq (st.loop, st.m)
        (g.choice (st.k + 1) (List.range (counts.getD st.m 0))
          (weights (counts.getD st.m 0) (st.cav.getD st.m [])
            (clampN (g.normal st.k) (min (st.cav.getD st.m []).length
              (min maxS (seqLen - lenOfValues st.cseq)))))
          (clampN (g.normal st.k) (min (st.cav.getD st.m []).length
            (min maxS (seqLen - lenOfValues st.cseq))))) := rfl

theorem drawResult_cav (seqLen maxS : Nat) (counts : List Nat) (g : Rng) (st : CandState) :
    (drawResult seqLen maxS counts g st).cav =
      st.cav.set st.m
        ((g.choice (st.k + 1) (List.range (counts.getD st.m 0))
          (weights (counts.getD st.m 0) (st.cav.getD st.m [])
            (clampN (g.normal st.k) (min (st.cav.getD st.m []).length
              (min maxS (seqLen - lenOfValues st.cseq)))))
          (clampN (g.normal st.k) (min (st.cav.getD st.m []).length
            (min maxS (seqLen - lenOfValues st.cseq))))).foldl List.erase
          (st.cav.getD st.m [])) := rfl

theorem drawResult_cqual (seqLen maxS : Nat) (counts : List Nat) (g : Rng) (st : CandState) :
    (drawResult seqLen maxS counts g st).cqual =
      st.cqual + qualSum
        (g.choice (st.k + 1) (List.range (counts.getD st.m 0))
          (weights (counts.getD st.m 0) (st.cav.getD st.m [])
            (clampN (g.normal st.k) (min (st.cav.getD st.m []).length
              (min maxS (seqLen - lenOfValues st.cseq)))))
          (clampN (g.normal st.k) (min (st.cav.getD st.m []).length
            (min maxS (seqLen - lenOfValues st.cseq))))) := rfl

/-- Everything one `candStep` preserves or changes, under the pool invariant:
the invariant is preserved, the recorded-index count grows by at most the
clamped draw bound, per-modality indices are conserved between pool and
record, the quality accumulator tracks the recorded indices, the pool only
shrinks, and new record keys name a real modality. -/
theorem candStep_spec (seqLen maxS : Nat) (counts : List Nat) (g : Rng) (st st2 : CandState)
    (hg : RngValid g) (hinv : PoolInv counts st.cav)
    (h : candStep seqLen maxS counts g st = .ok st2) :
    PoolInv counts st2.cav ∧
    lenOfValues st.cseq ≤ lenOfValues st2.cseq ∧
    lenOfValues st2.cseq ≤ lenOfValues st.cseq +
      min (st.cav.getD st.m []).length (min maxS (seqLen - lenOfValues st.cseq)) ∧
    (∀ m, ((st2.cav.getD m [] : Multiset Nat) + ↑(modIndices st2.cseq m) =
       ↑(st.cav.getD m []) + ↑(modIndices st.cseq m))) ∧
    st2.cqual - qualSum (allIndices st2.cseq) = st.cqual - qualSum (allIndices st.cseq) ∧
    (∀ m, (st2.cav.getD m []).Sublist (st.cav.getD m [])) ∧
    (∀ e ∈ st2.cseq, e ∈ st.cseq ∨ e.1.2 < counts.length) := by
  by_cases hm : 0 < (st.cav.getD st.m []).length
  · obtain ⟨hsum, hsup⟩ := candStep_checks seqLen maxS counts g st hinv hm
    rw [candStep_eq_draw seqLen maxS counts g st hm hsum hsup] at h
    have hst2 : st2 = advanceCursor (drawResult seqLen maxS counts g st) :=
      (Except.ok.inj h).symm
    subst hst2
    obtain ⟨hlen, hnodup, hsub⟩ := sel_facts seqLen maxS counts g st hg hinv
    have hmlt : st.m < st.cav.length :=
      lt_length_of_getD_ne_nil st.cav st.m
        (fun hnil => by rw [hnil] at hm; exact Nat.lt_irrefl 0 hm)
    have hmlt2 : st.m < counts.length := hinv.1 ▸ hmlt
    have herase := foldl_erase_multiset _ (st.cav.getD st.m []) hnodup hsub
    have hcseq := drawResult_cseq seqLen maxS counts g st
    have hcav := drawResult_cav seqLen maxS counts g st
    have hcqual := drawResult_cqual seqLen maxS counts g st
    refine ⟨?_, ?_, ?_, ?_, ?_, ?_, ?_⟩
    · rw [advanceCursor_cav, hcav]
      refine ⟨by rw [List.length_set]; exact hinv.1, ?_⟩
      intro m
      by_cases hmm : m = st.m
      · subst hmm
        rw [getD_set_self _ _ _ hmlt]
        constructor
        · exact (foldl_erase_sublist _ _).nodup (hinv.2 st.m).1
        · intro x hx
          exact (hinv.2 st.m).2 x ((foldl_erase_sublist _ _).subset hx)
      · rw [getD_set_ne _ _ _ _ (fun he => hmm he.symm)]
        exact hinv.2 m
    · rw [advanceCursor_cseq, hcseq, lenOfValues_dictAppend]
      exact Nat.le_add_right _ _
    · rw [advanceCursor_cseq, hcseq, lenOfValues_dictAppend, hlen]
      exact Nat.add_le_add_left (clampN_le _ _) _
    · intro m
      rw [advanceCursor_cav, advanceCursor_cseq, hcav, hcseq, modIndices_dictAppend]
      by_cases hmm : m = st.m
      · subst hmm
        rw [getD_set_self _ _ _ hmlt]
        simp only [if_pos rfl]
        rw [← herase]
        abel
      · rw [getD_set_ne _ _ _ _ (fun he => hmm he.symm),
          if_neg (fun he : st.m = m => hmm he.symm), add_zero]
    · rw [advanceCursor_cqual, advanceCursor_cseq, hcqual, hcseq]
      have hall : (allIndices (dictAppend st.cseq (st.loop, st.m)
          (g.choice (st.k + 1) (List.range (counts.getD st.m 0))
            (weights (counts.getD st.m 0) (st.cav.getD st.m [])
              (clampN (g.normal st.k) (min (st.cav.getD st.m []).length
                (min maxS (seqLen - lenOfValues st.cseq)))))
            (clampN (g.normal st.k) (min (st.cav.getD st.m []).length
              (min maxS (seqLen - lenOfValues st.cseq)))))) : Multiset Nat) =
          ↑(allIndices st.cseq) + ↑(g.choice (st.k + 1) (List.range (counts.getD st.m 0))
            (weights (counts.getD st.m 0) (st.cav.getD st.m [])
              (clampN (g.normal st.k) (min (st.cav.getD st.m []).length
                (min maxS (seqLen - lenOfValues st.cseq)))))
            (clampN (g.normal st.k) (min (st.cav.getD st.m []).length
              (min maxS (seqLen - lenOfValues st.cseq))))) :=
        allIndices_dictAppend _ _ _
      rw [Multiset.coe_add, Multiset.coe_eq_coe] at hall
      rw [qualSum_perm hall, qualSum_append]
      ring
    · intro m
      rw [advanceCursor_cav, hcav]
      by_cases hmm : m = st.m
      · subst hmm
        rw [getD_set_self _ _ _ hmlt]
        exact foldl_erase_sublist _ _
      · rw [getD_set_ne _ _ _ _ (fun he => hmm he.symm)]
    · intro e he
      rw [advanceCursor_cseq, hcseq] at he
      rcases mem_dictAppend_key _ _ _ e he with h1 | h1
      · exact Or.inl h1
      · exact Or.inr (by rw [h1]; exact hmlt2)
  · rw [candStep_eq_skip seqLen maxS counts g st hm] at h
    have hst2 : st2 = advanceCursor st := (Except.ok.inj h).symm
    subst hst2
    rw [advanceCursor_cseq, advanceCursor_cav, advanceCursor_cqual]
    exact ⟨hinv, Nat.le_refl _, Nat.le_add_right _ _,
      fun m => rfl, rfl, fun m => List.Sublist.refl _, fun e he => Or.inl he⟩

/-! ## The candidate generator and the batch -/

/-- Fuel-indexed specification of one full candidate generation: it never
raises (in particular the final length `assert` never fires), and a completed
candidate has exactly `seqLen` recorded indices, conserves every modality's
indices between its pool and its record, tracks quality, only shrinks the
pool, and only adds record keys naming a real modality. -/
theorem genCand_spec (seqLen maxS : Nat) (counts : List Nat) (g : Rng) (hg : RngValid g) :
    ∀ (fuel : Nat) (st : CandState), PoolInv counts st.cav → lenOfValues st.cseq ≤ seqLen →
    (∃ r, genCand seqLen maxS counts g fuel st = .ok r) ∧
    (∀ c, genCand seqLen maxS counts g fuel st = .ok (some c) →
      PoolInv counts c.cav ∧ lenOfValues c.cseq = seqLen ∧
      (∀ m, ((c.cav.getD m [] : Multiset Nat) + ↑(modIndices c.cseq m) =
         ↑(st.cav.getD m []) + ↑(modIndices st.cseq m))) ∧
      c.cqual - qualSum (allIndices c.cseq) = st.cqual - qualSum (allIndices st.cseq) ∧
      (∀ m, (c.cav.getD m []).Sublist (st.cav.getD m [])) ∧
      (∀ e ∈ c.cseq, e ∈ st.cseq ∨ e.1.2 < counts.length)) := by
  intro fuel
  induction fuel with
  | zero =>
    intro st hinv hlen
    refine ⟨⟨none, rfl⟩, fun c h => ?_⟩
    simp [genCand] at h
  | succ fuel ih =>
    intro st hinv hlen
    by_cases hl : lenOfValues st.cseq < seqLen
    · obtain ⟨st2, hstep⟩ := candStep_never_fails seqLen maxS counts g st hinv
      obtain ⟨hinv2, hge, hle, hcons, hqual, hsubl, hkeys⟩ :=
        candStep_spec seqLen maxS counts g st st2 hg hinv hstep
      have hlen2 : lenOfValues st2.cseq ≤ seqLen := by
        have h3 : min (st.cav.getD st.m []).length
            (min maxS (seqLen - lenOfValues st.cseq)) ≤ seqLen - lenOfValues st.cseq :=
          le_trans (Nat.min_le_right _ _) (Nat.min_le_right _ _)
        omega
      have heq : genCand seqLen maxS counts g (fuel + 1) st =
          genCand seqLen maxS counts g fuel st2 := by
        rw [genCand, if_pos hl, hstep]
      rw [heq]
      obtain ⟨hex, hok⟩ := ih st2 hinv2 hlen2
      refine ⟨hex, fun c h => ?_⟩
      obtain ⟨hinv3, hlen3, hcons3, hqual3, hsubl3, hkeys3⟩ := hok c h
      refine ⟨hinv3, hlen3, ?_, ?_, ?_, ?_⟩
      · intro m
        rw [hcons3 m, hcons m]
      · rw [hqual3, hqual]
      · intro m
        exact (hsubl3 m).trans (hsubl m)
      · intro e he
        rcases hkeys3 e he with h1 | h1
        · exact hkeys e h1
        · exact Or.inr h1
    · have heq2 : lenOfValues st.cseq = seqLen := Nat.le_antisymm hlen (Nat.le_of_not_lt hl)
      have heq : genCand seqLen maxS counts g (fuel + 1) st = .ok (some st) := by
        rw [genCand, if_neg hl, if_pos heq2]
      rw [heq]
      refine ⟨⟨some st, rfl⟩, fun c h => ?_⟩
      have hc : c = st := by
        have h2 := Except.ok.inj h
        exact (Option.some.inj h2).symm
      subst hc
      exact ⟨hinv, heq2, fun m => rfl, rfl, fun m => List.Sublist.refl _,
        fun e he => Or.inl he⟩

/-- The batch of 100 candidates: it never raises, returns one candidate per
iteration, and every candidate satisfies `CandProp` against the batch pool. -/
theorem genBatch_spec (seqLen maxS : Nat) (counts : List Nat) (g : Rng) (caseId : String)
    (fuel : Nat) (hg : RngValid g) :
    ∀ (i k : Nat) (pool : List (List Nat)), PoolInv counts pool →
    (∃ r, genBatch seqLen maxS counts g caseId fuel i k pool = .ok r) ∧
    (∀ cands k2, genBatch seqLen maxS counts g caseId fuel i k pool = .ok (some (cands, k2)) →
      cands.length = i ∧ ∀ cd ∈ cands, CandProp seqLen counts pool caseId cd) := by
  intro i
  induction i with
  | zero =>
    intro k pool hinv
    refine ⟨⟨some ([], k), rfl⟩, fun cands k2 h => ?_⟩
    have h2 : ([] : List (ℚ × Sequence × List (List Nat))) = cands :=
      congrArg Prod.fst (Option.some.inj (Except.ok.inj h))
    subst h2
    exact ⟨rfl, fun cd hcd => absurd hcd (List.not_mem_nil cd)⟩
  | succ i ih =>
    intro k pool hinv
    have hinv0 : PoolInv counts (initCand pool k).cav := hinv
    have hlen0 : lenOfValues (initCand pool k).cseq ≤ seqLen := Nat.zero_le _
    obtain ⟨⟨r, hr⟩, hok⟩ := genCand_spec seqLen maxS counts g hg fuel (initCand pool k)
      hinv0 hlen0
    cases r with
    | none =>
      have heq : genBatch seqLen maxS counts g caseId fuel (i + 1) k pool = .ok none := by
        simp only [genBatch]
        rw [hr]
      rw [heq]
      exact ⟨⟨none, rfl⟩, fun cands k2 h => by simp at h⟩
    | some c =>
      obtain ⟨hinvc, hlenc, hconsc, hqualc, hsublc, hkeysc⟩ := hok c hr
      obtain ⟨⟨r2, hr2⟩, hok2⟩ := ih c.k pool hinv
      cases r2 with
      | none =>
        have heq : genBatch seqLen maxS counts g caseId fuel (i + 1) k pool = .ok none := by
          simp only [genBatch, hr, hr2]
        rw [heq]
        exact ⟨⟨none, rfl⟩, fun cands k2 h => by simp at h⟩
      | some p =>
        obtain ⟨rest, k2⟩ := p
        have heq : genBatch seqLen maxS counts g caseId fuel (i + 1) k pool =
            .ok (some ((c.cqual, Sequence.mk caseId c.cseq, c.cav) :: rest, k2)) := by
          simp only [genBatch, hr, hr2]
        rw [heq]
        obtain ⟨hlenr, hallr⟩ := hok2 rest k2 hr2
        refine ⟨⟨_, rfl⟩, fun cands k3 h => ?_⟩
        have h2 := Option.some.inj (Except.ok.inj h)
        have hcands : (c.cqual, Sequence.mk caseId c.cseq, c.cav) :: rest = cands :=
          congrArg Prod.fst h2
        subst hcands
        refine ⟨by simp [hlenr], fun cd hcd => ?_⟩
        rcases List.mem_cons.mp hcd with h3 | h3
        · subst h3
          refine ⟨hinvc, hlenc, ?_, ?_, ?_, rfl, ?_⟩
          · intro m
            have h4 := hconsc m
            simpa [initCand, modIndices_nil] using h4
          · have h5 : qualSum (allIndices (initCand pool k).cseq) = 0 := rfl
            have h6 := hqualc
            rw [h5] at h6
            simp only [initCand] at h6
            linarith [h6]
          · intro m
            exact hsublc m
          · intro e he
            rcases hkeysc e he with h7 | h7
            · exact absurd h7 (List.not_mem_nil e)
            · exact h7
        · exact hallr cd h3

/-! ## The greedy selection: head of the stable sort -/

theorem firstArgmin_cons_isSome (target : ℚ) (c : ℚ × Sequence × List (List Nat))
    (cs : List (ℚ × Sequence × List (List Nat))) :
    ∃ b, firstArgmin target (c :: cs) = some b := by
  simp only [firstArgmin]
  cases firstArgmin target cs with
  | none => exact ⟨c, rfl⟩
  | some b =>
    by_cases h : candKey target b < candKey target c
    · exact ⟨b, by simp [h]⟩
    · exact ⟨c, by simp [h]⟩

theorem firstArgmin_spec (target : ℚ) :
    ∀ (cs : List (ℚ × Sequence × List (List Nat))) (b), firstArgmin target cs = some b →
    b ∈ cs ∧ ∀ c ∈ cs, candKey target b ≤ candKey target c
  | [], b, h => by simp [firstArgmin] at h
  | c :: cs, b, h => by
    cases hcs : cs with
    | nil =>
      subst hcs
      simp only [firstArgmin] at h
      have hb : c = b := Option.some.inj h
      subst hb
      exact ⟨List.mem_singleton_self c, fun x hx => by
        rw [List.mem_singleton.mp hx]⟩
    | cons c2 cs2 =>
      subst hcs
      obtain ⟨b2, hb2⟩ := firstArgmin_cons_isSome target c2 cs2
      simp only [firstArgmin] at h hb2
      rw [hb2] at h
      have hif : (if candKey target b2 < candKey target c then some b2 else some c) =
          some b := h
      obtain ⟨hmem2, hmin2⟩ := firstArgmin_spec target (c2 :: cs2) b2 hb2
      by_cases hlt : candKey target b2 < candKey target c
      · rw [if_pos hlt] at hif
        have hb : b2 = b := Option.some.inj hif
        subst hb
        refine ⟨List.mem_cons_of_mem c hmem2, fun x hx => ?_⟩
        rcases List.mem_cons.mp hx with h1 | h1
        · rw [h1]
          exact le_of_lt hlt
        · exact hmin2 x h1
      · rw [if_neg hlt] at hif
        have hb : c = b := Option.some.inj hif
        subst hb
        refine ⟨List.mem_cons_self _ _, fun x hx => ?_⟩
        rcases List.mem_cons.mp hx with h1 | h1
        · rw [h1]
        · exact le_trans (le_of_not_lt hlt) (hmin2 x h1)

theorem head_sortCands (target : ℚ) :
    ∀ cs : List (ℚ × Sequence × List (List Nat)),
    (sortCands target cs).head? = firstArgmin target cs
  | [] => rfl
  | c :: cs => by
    have hstep : sortCands target (c :: cs) =
        List.orderedInsert (fun a b => candKey target a ≤ candKey target b) c
          (sortCands target cs) := rfl
    rw [hstep]
    cases hl : sortCands target cs with
    | nil =>
      have h1 : firstArgmin target cs = none := by
        rw [← head_sortCands target cs, hl]
        rfl
      simp [List.orderedInsert, firstArgmin, h1]
    | cons b rest =>
      have h1 : firstArgmin target cs = some b := by
        rw [← head_sortCands target cs, hl]
        rfl
      simp only [List.orderedInsert, firstArgmin, h1]
      by_cases hcb : candKey target c ≤ candKey target b
      · rw [if_pos hcb, if_neg (not_lt.mpr hcb)]
        rfl
      · rw [if_neg hcb, if_pos (lt_of_not_le hcb)]
        rfl

theorem head_sortCands_spec (target : ℚ) (cs : List (ℚ × Sequence × List (List Nat)))
    (b : ℚ × Sequence × List (List Nat)) (h : (sortCands target cs).head? = some b) :
    b ∈ cs ∧ (∀ c ∈ cs, candKey target b ≤ candKey target c) ∧
    firstArgmin target cs = some b := by
  rw [head_sortCands] at h
  obtain ⟨h1, h2⟩ := firstArgmin_spec target cs b h
  exact ⟨h1, h2, h⟩

theorem sortCands_head_exists (target : ℚ) (c : ℚ × Sequence × List (List Nat))
    (cs : List (ℚ × Sequence × List (List Nat))) :
    ∃ b, (sortCands target (c :: cs)).head? = some b := by
  rw [head_sortCands]
  exact firstArgmin_cons_isSome target c cs

/-! ## The per-case greedy loop -/

/-- Fuel-indexed specification of the per-case `while True` loop: it never
raises, and a completed run extends the accumulator with sequences that are
all full-length, owned by the case, keyed by real modalities, and whose
indices per modality are exactly what left the pool. -/
theorem genLoop_spec (seqLen maxS : Nat) (target : ℚ) (counts : List Nat) (g : Rng)
    (caseId : String) (fuel : Nat) (hg : RngValid g) :
    ∀ (rounds k : Nat) (pool : List (List Nat)) (acc : List Sequence), PoolInv counts pool →
    (∃ r, genLoop seqLen maxS target counts g caseId fuel rounds k pool acc = .ok r) ∧
    (∀ seqs, genLoop seqLen maxS target counts g caseId fuel rounds k pool acc =
        .ok (some seqs) →
      ∃ newSeqs pool2, seqs = acc ++ newSeqs ∧ PoolInv counts pool2 ∧
        (∀ m, (↑(pool.getD m []) : Multiset Nat) =
           ↑(pool2.getD m []) + ↑((newSeqs.map (fun s => modIndices s.data m)).flatten)) ∧
        (∀ s ∈ newSeqs, lenOfValues s.data = seqLen ∧ s.caseId = caseId ∧
           (∀ e ∈ s.data, e.1.2 < counts.length))) := by
  intro rounds
  induction rounds with
  | zero =>
    intro k pool acc hinv
    exact ⟨⟨none, rfl⟩, fun seqs h => by simp [genLoop] at h⟩
  | succ rounds ih =>
    intro k pool acc hinv
    by_cases hp : poolLen pool < seqLen
    · have heq : genLoop seqLen maxS target counts g caseId fuel (rounds + 1) k pool acc =
          .ok (some acc) := by
        rw [genLoop, if_pos hp]
      rw [heq]
      refine ⟨⟨some acc, rfl⟩, fun seqs h => ?_⟩
      have hseqs : acc = seqs := Option.some.inj (Except.ok.inj h)
      subst hseqs
      exact ⟨[], pool, by simp, hinv, fun m => by simp, fun s hs => absurd hs
        (List.not_mem_nil s)⟩
    · obtain ⟨⟨r, hr⟩, hokb⟩ := genBatch_spec seqLen maxS counts g caseId fuel hg 100 k
        pool hinv
      cases r with
      | none =>
        have heq : genLoop seqLen maxS target counts g caseId fuel (rounds + 1) k pool acc =
            .ok none := by
          simp only [genLoop, hr, if_neg hp]
        rw [heq]
        exact ⟨⟨none, rfl⟩, fun seqs h => by simp at h⟩
      | some p =>
        obtain ⟨cands, k2⟩ := p
        obtain ⟨hlenc, hallc⟩ := hokb cands k2 hr
        have hne : ∃ c0 cs0, cands = c0 :: cs0 := by
          cases cands with
          | nil => simp at hlenc
          | cons c0 cs0 => exact ⟨c0, cs0, rfl⟩
        obtain ⟨c0, cs0, hcands⟩ := hne
        subst hcands
        obtain ⟨b, hb⟩ := sortCands_head_exists target c0 cs0
        obtain ⟨hbmem, hbmin, hbfirst⟩ := head_sortCands_spec target (c0 :: cs0) b hb
        have hbprop := hallc b hbmem
        by_cases hbt : b.1 < target
        · have heq : genLoop seqLen maxS target counts g caseId fuel (rounds + 1) k pool
              acc = .ok (some acc) := by
            simp only [genLoop, hr, if_neg hp, hb, if_pos hbt]
          rw [heq]
          refine ⟨⟨some acc, rfl⟩, fun seqs h => ?_⟩
          have hseqs : acc = seqs := Option.some.inj (Except.ok.inj h)
          subst hseqs
          exact ⟨[], pool, by simp, hinv, fun m => by simp, fun s hs => absurd hs
            (List.not_mem_nil s)⟩
        · have heq : genLoop seqLen maxS target counts g caseId fuel (rounds + 1) k pool
              acc = genLoop seqLen maxS target counts g caseId fuel rounds k2 b.2.2
              (acc ++ [b.2.1]) := by
            simp only [genLoop, hr, if_neg hp, hb, if_neg hbt]
          rw [heq]
          obtain ⟨hex3, hok3⟩ := ih k2 b.2.2 (acc ++ [b.2.1]) hbprop.1
          refine ⟨hex3, fun seqs h => ?_⟩
          obtain ⟨new2, pool2, hseqs, hinv2, hcons2, hprops2⟩ := hok3 seqs h
          refine ⟨b.2.1 :: new2, pool2, by rw [hseqs, List.append_assoc]; rfl, hinv2,
            ?_, ?_⟩
          · intro m
            have h1 := (hbprop.2.2.1 m).symm
            have h2 := hcons2 m
            rw [List.map_cons, List.flatten_cons, ← Multiset.coe_add]
            rw [h2] at h1
            rw [h1]
            abel
          · intro s hs
            rcases List.mem_cons.mp hs with h1 | h1
            · subst h1
              exact ⟨hbprop.2.1, hbprop.2.2.2.2.2.1, hbprop.2.2.2.2.2.2⟩
            · exact hprops2 s h1

/-! ## From the loop to the whole call -/

theorem PoolInv_init (counts : List Nat) : PoolInv counts (counts.map List.range) := by
  constructor
  · simp
  · intro m
    rw [getD_map_range]
    exact ⟨List.nodup_range _, fun x hx => List.mem_range.mp hx⟩

theorem support_nodup (pop : List Nat) (w : List ℚ) (h : pop.Nodup) :
    (support pop w).Nodup :=
  (support_sublist pop w).nodup h

theorem demoRng_valid : RngValid demoRng := by
  intro k pop w n hn
  refine ⟨?_, ?_, ?_⟩
  · simp only [demoRng, List.length_take]
    omega
  · intro x hx
    exact (List.take_sublist _ _).subset hx
  · intro hnd
    exact ((List.take_sublist _ _).nodup (support_nodup pop w hnd))

theorem perCaseRun_none (mk : Int → Rng) (ent : String → Rng) (seeds : List (String × Int))
    (seed : Int) (seqLen maxS : Nat) (target : ℚ) (dl : DataLoader) (fuel : Nat)
    (caseId : String) (hsh : dl.shapes caseId = none) :
    perCaseRun mk ent seeds seed seqLen maxS target dl fuel caseId = .error .missingCase := by
  simp only [perCaseRun, hsh]

theorem perCaseRun_some (mk : Int → Rng) (ent : String → Rng) (seeds : List (String × Int))
    (seed : Int) (seqLen maxS : Nat) (target : ℚ) (dl : DataLoader) (fuel : Nat)
    (caseId : String) (counts : List Nat) (hsh : dl.shapes caseId = some counts) :
    perCaseRun mk ent seeds seed seqLen maxS target dl fuel caseId =
      genLoop seqLen maxS target counts
        (if 0 ≤ seed then mk ((seeds.lookup caseId).getD 0) else ent caseId)
        caseId fuel fuel 0 (counts.map List.range) [] := by
  simp only [perCaseRun, hsh]

/-- A finished per-case task satisfies `CaseOut` for its own slice counts. -/
theorem perCaseRun_spec (mk : Int → Rng) (ent : String → Rng) (seeds : List (String × Int))
    (seed : Int) (seqLen maxS : Nat) (target : ℚ) (dl : DataLoader) (fuel : Nat)
    (caseId : String) (counts : List Nat)
    (hmk : ∀ s, RngValid (mk s)) (hent : ∀ c, RngValid (ent c))
    (hsh : dl.shapes caseId = some counts) :
    (∃ r, perCaseRun mk ent seeds seed seqLen maxS target dl fuel caseId = .ok r) ∧
    (∀ seqs, perCaseRun mk ent seeds seed seqLen maxS target dl fuel caseId =
      .ok (some seqs) → CaseOut seqLen counts caseId seqs) := by
  rw [perCaseRun_some mk ent seeds seed seqLen maxS target dl fuel caseId counts hsh]
  have hg : RngValid (if 0 ≤ seed then mk ((seeds.lookup caseId).getD 0) else ent caseId) := by
    by_cases h0 : 0 ≤ seed
    · rw [if_pos h0]; exact hmk _
    · rw [if_neg h0]; exact hent _
  obtain ⟨hex, hok⟩ := genLoop_spec seqLen maxS target counts _ caseId fuel hg fuel 0
    (counts.map List.range) [] (PoolInv_init counts)
  refine ⟨hex, fun seqs h => ?_⟩
  obtain ⟨newSeqs, pool2, hseqs, hinv2, hcons2, hprops2⟩ := hok seqs h
  rw [List.nil_append] at hseqs
  subst hseqs
  constructor
  · exact fun s hs => ⟨(hprops2 s hs).1, (hprops2 s hs).2.1⟩
  · intro m
    have h1 := hcons2 m
    rw [getD_map_range] at h1
    have h2 : (↑((seqs.map (fun s => modIndices s.data m)).flatten) : Multiset Nat) ≤
        ↑(List.range (counts.getD m 0)) := by
      rw [h1]
      exact Multiset.le_add_left _ _
    have h3 : ((seqs.map (fun s => modIndices s.data m)).flatten : Multiset Nat).Nodup :=
      Multiset.nodup_of_le h2 (Multiset.coe_nodup.mpr (List.nodup_range _))
    exact Multiset.coe_nodup.mp h3

/-- Any task failure fails the whole fan-out: no collection is returned. -/
theorem runCases_error (mk : Int → Rng) (ent : String → Rng) (seeds : List (String × Int))
    (seed : Int) (seqLen maxS : Nat) (target : ℚ) (dl : DataLoader) (fuel : Nat) :
    ∀ (keys : List String) (c : String) (e : GenError), c ∈ keys →
    perCaseRun mk ent seeds seed seqLen maxS target dl fuel c = .error e →
    ∀ coll, runCases mk ent seeds seed seqLen maxS target dl fuel keys ≠ .ok (some coll)
  | [], c, e, hc, _, coll => absurd hc (List.not_mem_nil c)
  | k :: rest, c, e, hc, he, coll => by
    intro h
    by_cases hck : c = k
    · subst hck
      rw [runCases, he] at h
      exact Except.noConfusion h
    · have hcrest : c ∈ rest := by
        rcases List.mem_cons.mp hc with h1 | h1
        · exact absurd h1 hck
        · exact h1
      rw [runCases] at h
      cases hpc : perCaseRun mk ent seeds seed seqLen maxS target dl fuel k with
      | error e2 => rw [hpc] at h; exact Except.noConfusion h
      | ok o =>
        rw [hpc] at h
        cases o with
        | none => simp at h
        | some seqs =>
          cases hrc : runCases mk ent seeds seed seqLen maxS target dl fuel rest with
          | error e2 => rw [hrc] at h; simp at h
          | ok o2 =>
            rw [hrc] at h
            cases o2 with
            | none => simp at h
            | some coll2 =>
              exact runCases_error mk ent seeds seed seqLen maxS target dl fuel rest c e
                hcrest he coll2 hrc

/-- Every entry of a returned collection comes from its case's finished task. -/
theorem runCases_spec (mk : Int → Rng) (ent : String → Rng) (seeds : List (String × Int))
    (seed : Int) (seqLen maxS : Nat) (target : ℚ) (dl : DataLoader) (fuel : Nat)
    (hmk : ∀ s, RngValid (mk s)) (hent : ∀ c, RngValid (ent c)) :
    ∀ (keys : List String) (coll : List (String × List Sequence)),
    runCases mk ent seeds seed seqLen maxS target dl fuel keys = .ok (some coll) →
    ∀ en ∈ coll, en.1 ∈ keys ∧
      ∃ counts, dl.shapes en.1 = some counts ∧ CaseOut seqLen counts en.1 en.2
  | [], coll, h, en, hen => by
    have hc : ([] : List (String × List Sequence)) = coll := Option.some.inj (Except.ok.inj h)
    subst hc
    exact absurd hen (List.not_mem_nil en)
  | k :: rest, coll, h, en, hen => by
    rw [runCases] at h
    cases hpc : perCaseRun mk ent seeds seed seqLen maxS target dl fuel k with
    | error e2 => rw [hpc] at h; exact Except.noConfusion h
    | ok o =>
      rw [hpc] at h
      cases o with
      | none => simp at h
      | some seqs =>
        cases hrc : runCases mk ent seeds seed seqLen maxS target dl fuel rest with
        | error e2 => rw [hrc] at h; simp at h
        | ok o2 =>
          rw [hrc] at h
          cases o2 with
          | none => simp at h
          | some coll2 =>
            have hc : (k, seqs) :: coll2 = coll := by
              have h2 := Except.ok.inj h
              exact Option.some.inj h2
            subst hc
            rcases List.mem_cons.mp hen with h1 | h1
            · subst h1
              cases hsh : dl.shapes k with
              | none =>
                rw [perCaseRun_none mk ent seeds seed seqLen maxS target dl fuel k hsh]
                  at hpc
                exact Except.noConfusion hpc
              | some counts =>
                obtain ⟨_, hok⟩ := perCaseRun_spec mk ent seeds seed seqLen maxS target dl
                  fuel k counts hmk hent hsh
                exact ⟨List.mem_cons_self _ _, counts, rfl, hok seqs hpc⟩
            · obtain ⟨hmem, hrest⟩ := runCases_spec mk ent seeds seed seqLen maxS target
                dl fuel hmk hent rest coll2 hrc en h1
              exact ⟨List.mem_cons_of_mem _ hmem, hrest⟩

/-! ## Per-case seeds and determinism -/

theorem dictSet_fresh : ∀ (d : List (String × Int)) (key : String) (v : Int),
    (∀ e ∈ d, e.1 ≠ key) → dictSet d key v = d ++ [(key, v)]
  | [], key, v, _ => rfl
  | e :: rest, key, v, h => by
    rw [dictSet, if_neg (h e (List.mem_cons_self e rest)), List.cons_append,
      dictSet_fresh rest key v (fun e2 he2 => h e2 (List.mem_cons_of_mem e he2))]

theorem foldl_dictSet_fresh (seed : Int) : ∀ (l : List (Nat × String))
    (acc : List (String × Int)), (l.map Prod.snd).Nodup →
    (∀ p ∈ l, ∀ e ∈ acc, e.1 ≠ p.2) →
    l.foldl (fun d sc => dictSet d sc.2 (seed + sc.1)) acc =
      acc ++ l.map (fun p => (p.2, seed + p.1))
  | [], acc, _, _ => by simp
  | p :: l, acc, hnd, hfresh => by
    have hstep : (p :: l).foldl (fun d sc => dictSet d sc.2 (seed + sc.1)) acc =
        l.foldl (fun d sc => dictSet d sc.2 (seed + sc.1))
          (dictSet acc p.2 (seed + p.1)) := rfl
    rw [hstep, dictSet_fresh acc p.2 (seed + p.1)
      (fun e he => hfresh p (List.mem_cons_self p l) e he)]
    have hnd2 : (l.map Prod.snd).Nodup := (List.nodup_cons.mp (by simpa using hnd)).2
    have hnotin : p.2 ∉ l.map Prod.snd := (List.nodup_cons.mp (by simpa using hnd)).1
    rw [foldl_dictSet_fresh seed l (acc ++ [(p.2, seed + p.1)]) hnd2 ?_]
    · simp
    · intro q hq e he
      rcases List.mem_append.mp he with h1 | h1
      · exact hfresh q (List.mem_cons_of_mem p hq) e h1
      · rw [List.mem_singleton.mp h1]
        intro hcontra
        have hpq : p.2 = q.2 := hcontra
        exact hnotin (hpq ▸ List.mem_map_of_mem Prod.snd hq)

theorem seedsOf_eq (seed : Int) (keys : List String) (hnd : keys.Nodup) :
    seedsOf seed keys = keys.enum.map (fun p => (p.2, seed + p.1)) := by
  rw [seedsOf, foldl_dictSet_fresh seed keys.enum []
    (by rw [List.enum_map_snd]; exact hnd) (fun p _ e he => absurd he (List.not_mem_nil e))]
  simp

theorem lookup_enumFrom (seed : Int) : ∀ (keys : List String) (off : Nat), keys.Nodup →
    ∀ (i : Nat) (c : String), keys[i]? = some c →
    ((List.enumFrom off keys).map (fun p => (p.2, seed + p.1))).lookup c =
      some (seed + off + i)
  | [], off, _, i, c, h => by simp at h
  | k :: rest, off, hnd, i, c, h => by
    cases i with
    | zero =>
      have hc : k = c := by simpa using h
      subst hc
      simp [List.enumFrom, List.lookup]
    | succ i =>
      have hrest : rest[i]? = some c := by simpa using h
      have hcmem : c ∈ rest := by
        have := List.getElem?_eq_some_iff.mp hrest
        obtain ⟨hlt, hget⟩ := this
        exact hget ▸ List.getElem_mem hlt
      have hkc : k ≠ c := fun he => (List.nodup_cons.mp hnd).1 (he ▸ hcmem)
      have hne : (c == k) = false := by
        simp [BEq.beq]
        exact fun he => hkc he.symm
      have hrec := lookup_enumFrom seed rest (off + 1) (List.nodup_cons.mp hnd).2 i c hrest
      simp only [List.enumFrom, List.map_cons, List.lookup, hne]
      rw [hrec]
      congr 1
      push_cast
      ring

theorem lookup_seedsOf (seed : Int) (keys : List String) (hnd : keys.Nodup)
    (i : Nat) (c : String) (h : keys[i]? = some c) :
    (seedsOf seed keys).lookup c = some (seed + i) := by
  rw [seedsOf_eq seed keys hnd]
  have haux := lookup_enumFrom seed keys 0 hnd i c h
  have henum : keys.enum = List.enumFrom 0 keys := rfl
  rw [henum]
  simpa using haux

theorem runCases_congr (mk : Int → Rng) (ent1 ent2 : String → Rng)
    (seeds : List (String × Int)) (seed : Int) (seqLen maxS : Nat) (target : ℚ)
    (dl1 dl2 : DataLoader) (fuel : Nat) (hseed : 0 ≤ seed) :
    ∀ keys : List String, (∀ c ∈ keys, dl1.shapes c = dl2.shapes c) →
    runCases mk ent1 seeds seed seqLen maxS target dl1 fuel keys =
      runCases mk ent2 seeds seed seqLen maxS target dl2 fuel keys
  | [], _ => rfl
  | k :: rest, hsh => by
    have hpc : perCaseRun mk ent1 seeds seed seqLen maxS target dl1 fuel k =
        perCaseRun mk ent2 seeds seed seqLen maxS target dl2 fuel k := by
      simp only [perCaseRun, if_pos hseed, hsh k (List.mem_cons_self k rest)]
    have hih := runCases_congr mk ent1 ent2 seeds seed seqLen maxS target dl1 dl2 fuel
      hseed rest (fun c hc => hsh c (List.mem_cons_of_mem k hc))
    simp only [runCases, hpc, hih]

/-! ## Pool shrinkage without oracle assumptions, and the five-slice scenario -/

theorem candStep_eq_badsum (seqLen maxS : Nat) (counts : List Nat) (g : Rng) (st : CandState)
    (hm : 0 < (st.cav.getD st.m []).length)
    (hsum : (weights (counts.getD st.m 0) (st.cav.getD st.m [])
        (clampN (g.normal st.k) (min (st.cav.getD st.m []).length
          (min maxS (seqLen - lenOfValues st.cseq))))).sum = 0) :
    candStep seqLen maxS counts g st = .error .badChoice := by
  simp only [candStep, hm, if_true, hsum, if_pos]

theorem candStep_eq_badsupport (seqLen maxS : Nat) (counts : List Nat) (g : Rng)
    (st : CandState) (hm : 0 < (st.cav.getD st.m []).length)
    (hsum : ¬ (weights (counts.getD st.m 0) (st.cav.getD st.m [])
        (clampN (g.normal st.k) (min (st.cav.getD st.m []).length
          (min maxS (seqLen - lenOfValues st.cseq))))).sum = 0)
    (hsup : (support (List.range (counts.getD st.m 0))
        (weights (counts.getD st.m 0) (st.cav.getD st.m [])
          (clampN (g.normal st.k) (min (st.cav.getD st.m []).length
            (min maxS (seqLen - lenOfValues st.cseq)))))).length <
        clampN (g.normal st.k) (min (st.cav.getD st.m []).length
          (min maxS (seqLen - lenOfValues st.cseq)))) :
    candStep seqLen maxS counts g st = .error .badChoice := by
  simp only [candStep, hm, if_true, hsum, if_false, hsup, if_pos]

theorem candStep_shrinks (seqLen maxS : Nat) (counts : List Nat) (g : Rng)
    (st st2 : CandState) (h : candStep seqLen maxS counts g st = .ok st2) :
    ∀ m, (st2.cav.getD m []).Sublist (st.cav.getD m []) := by
  by_cases hm : 0 < (st.cav.getD st.m []).length
  · by_cases hsum : (weights (counts.getD st.m 0) (st.cav.getD st.m [])
        (clampN (g.normal st.k) (min (st.cav.getD st.m []).length
          (min maxS (seqLen - lenOfValues st.cseq))))).sum = 0
    · rw [candStep_eq_badsum seqLen maxS counts g st hm hsum] at h
      exact Except.noConfusion h
    · by_cases hsup : (support (List.range (counts.getD st.m 0))
          (weights (counts.getD st.m 0) (st.cav.getD st.m [])
            (clampN (g.normal st.k) (min (st.cav.getD st.m []).length
              (min maxS (seqLen - lenOfValues st.cseq)))))).length <
          clampN (g.normal st.k) (min (st.cav.getD st.m []).length
            (min maxS (seqLen - lenOfValues st.cseq)))
      · rw [candStep_eq_badsupport seqLen maxS counts g st hm hsum hsup] at h
        exact Except.noConfusion h
      · rw [candStep_eq_draw seqLen maxS counts g st hm hsum hsup] at h
        have hst2 : st2 = advanceCursor (drawResult seqLen maxS counts g st) :=
          (Except.ok.inj h).symm
        subst hst2
        have hmlt : st.m < st.cav.length :=
          lt_length_of_getD_ne_nil st.cav st.m
            (fun hnil => by rw [hnil] at hm; exact Nat.lt_irrefl 0 hm)
        intro m
        rw [advanceCursor_cav, drawResult_cav]
        by_cases hmm : m = st.m
        · subst hmm
          rw [getD_set_self _ _ _ hmlt]
          exact foldl_erase_sublist _ _
        · rw [getD_set_ne _ _ _ _ (fun he => hmm he.symm)]
  · rw [candStep_eq_skip seqLen maxS counts g st hm] at h
    have hst2 : st2 = advanceCursor st := (Except.ok.inj h).symm
    subst hst2
    intro m
    rw [advanceCursor_cav]

theorem genCand_shrinks (seqLen maxS : Nat) (counts : List Nat) (g : Rng) :
    ∀ (fuel : Nat) (st c : CandState),
    genCand seqLen maxS counts g fuel st = .ok (some c) →
    ∀ m, (c.cav.getD m []).Sublist (st.cav.getD m [])
  | 0, st, c, h => by simp [genCand] at h
  | fuel + 1, st, c, h => by
    by_cases hl : lenOfValues st.cseq < seqLen
    · rw [genCand, if_pos hl] at h
      cases hstep : candStep seqLen maxS counts g st with
      | error e => rw [hstep] at h; exact Except.noConfusion h
      | ok st2 =>
        rw [hstep] at h
        intro m
        exact (genCand_shrinks seqLen maxS counts g fuel st2 c h m).trans
          (candStep_shrinks seqLen maxS counts g st st2 hstep m)
    · rw [genCand, if_neg hl] at h
      by_cases he : lenOfValues st.cseq = seqLen
      · rw [if_pos he] at h
        have hc : st = c := Option.some.inj (Except.ok.inj h)
        subst hc
        intro m
        exact List.Sublist.refl _
      · rw [if_neg he] at h
        exact Except.noConfusion h

theorem modIndices_eq_allIndices : ∀ (d : List ((Nat × Nat) × List Nat)) (m : Nat),
    (∀ e ∈ d, e.1.2 = m) → modIndices d m = allIndices d
  | [], m, _ => rfl
  | e :: rest, m, h => by
    rw [modIndices_cons, allIndices_cons, if_pos (h e (List.mem_cons_self e rest)),
      modIndices_eq_allIndices rest m (fun e2 he2 => h e2 (List.mem_cons_of_mem e he2))]

/-- The concrete five-slice scenario: whenever the per-case loop finishes, it
has accepted exactly one Sequence consuming all five slice indices. -/
theorem genLoop_five (g : Rng) (caseId : String) (fuel rounds k : Nat) (hg : RngValid g)
    (seqs : List Sequence)
    (h : genLoop 5 3 (clip01 (1/2) * ((5 : Nat) : ℚ)) [5] g caseId fuel rounds k
      ([5].map List.range) [] = .ok (some seqs)) :
    ∃ s, seqs = [s] ∧ (↑(allIndices s.data) : Multiset Nat) = ↑(List.range 5) := by
  cases rounds with
  | zero => simp [genLoop] at h
  | succ rounds =>
    have hp : ¬ poolLen ([5].map List.range) < 5 := by decide
    have hinv : PoolInv [5] ([5].map List.range) := PoolInv_init [5]
    obtain ⟨⟨r, hr⟩, hokb⟩ := genBatch_spec 5 3 [5] g caseId fuel hg 100 k
      ([5].map List.range) hinv
    cases r with
    | none =>
      rw [genLoop, if_neg hp, hr] at h
      simp at h
    | some p =>
      obtain ⟨cands, k2⟩ := p
      obtain ⟨hlenc, hallc⟩ := hokb cands k2 hr
      have hne : ∃ c0 cs0, cands = c0 :: cs0 := by
        cases cands with
        | nil => simp at hlenc
        | cons c0 cs0 => exact ⟨c0, cs0, rfl⟩
      obtain ⟨c0, cs0, hcands⟩ := hne
      subst hcands
      obtain ⟨b, hb⟩ := sortCands_head_exists (clip01 (1/2) * ((5 : Nat) : ℚ)) c0 cs0
      obtain ⟨hbmem, hbmin, hbfirst⟩ :=
        head_sortCands_spec (clip01 (1/2) * ((5 : Nat) : ℚ)) (c0 :: cs0) b hb
      have hbprop := hallc b hbmem
      have hkeys0 : ∀ e ∈ b.2.1.data, e.1.2 = 0 := by
        intro e he
        have hlt := hbprop.2.2.2.2.2.2 e he
        simp at hlt
        exact hlt
      have hmod : modIndices b.2.1.data 0 = allIndices b.2.1.data :=
        modIndices_eq_allIndices _ 0 hkeys0
      have hcons0 := hbprop.2.2.1 0
      have hpool0 : ([5].map List.range).getD 0 [] = List.range 5 := rfl
      rw [hpool0, hmod] at hcons0
      have hlen5 : (allIndices b.2.1.data).length = 5 := by
        rw [length_allIndices]
        exact hbprop.2.1
      have hcard := congrArg Multiset.card hcons0
      simp only [Multiset.card_add, Multiset.coe_card, hlen5, List.length_range] at hcard
      have hnil : b.2.2.getD 0 [] = [] :=
        List.eq_nil_of_length_eq_zero (by omega)
      rw [hnil] at hcons0
      have hall : (↑(allIndices b.2.1.data) : Multiset Nat) = ↑(List.range 5) := by
        simpa using hcons0
      have hq : b.1 = 5 / 2 := by
        rw [hbprop.2.2.2.1]
        rw [Multiset.coe_eq_coe] at hall
        rw [qualSum_perm hall]
        with_unfolding_all decide
      have htar : clip01 (1/2) * ((5 : Nat) : ℚ) = 5 / 2 := by with_unfolding_all decide
      have hnlt : ¬ b.1 < clip01 (1/2) * ((5 : Nat) : ℚ) := by
        rw [hq, htar]
        exact lt_irrefl _
      rw [Multiset.coe_eq_coe] at hall
      simp only [genLoop, if_neg hp, hr, hb, if_neg hnlt] at h
      have hplen : poolLen b.2.2 < 5 := by
        have hlen1 : b.2.2.length = 1 := by
          have := hbprop.1.1
          simpa using this
        cases hb22 : b.2.2 with
        | nil => rw [hb22] at hlen1; simp at hlen1
        | cons x rest =>
          rw [hb22] at hlen1
          simp at hlen1
          subst hlen1
          have hx : x = [] := by
            rw [hb22] at hnil
            exact hnil
          subst hx
          decide
      cases rounds with
      | zero => simp [genLoop] at h
      | succ r2 =>
        rw [genLoop, if_pos hplen] at h
        have hseqs : [] ++ [b.2.1] = seqs := Option.some.inj (Except.ok.inj h)
        refine ⟨b.2.1, by rw [← hseqs, List.nil_append], ?_⟩
        rw [Multiset.coe_eq_coe]
        exact hall

/-! ## Shared concrete evaluations for the witnesses -/

theorem generate_sequences_def (mk : Int → Rng) (ent : String → Rng) (dl : DataLoader)
    (fuel : Nat) (seed : Int) (seqLen maxS : Nat) (q : ℚ) :
    generate_sequences mk ent dl fuel seed seqLen maxS q =
      runCases mk ent (seedsOf seed dl.keys) seed seqLen maxS (clip01 q * seqLen) dl
        fuel dl.keys := rfl

set_option maxRecDepth 10000 in
theorem demo_run :
    generate_sequences (fun _ => demoRng) (fun _ => demoRng) demoLoader 30 7 5 3 (1/2) =
      .ok (some [("a", [demoSeq])]) := by
  with_unfolding_all decide

set_option maxRecDepth 2000 in
theorem demo_cand :
    genCand 1 1 [1] demoRng 5 (initCand ([1].map List.range) 0) =
      .ok (some ⟨2, 1/4, [((0, 0), [0])], [[]], 0, 1⟩) := by
  with_unfolding_all decide

/-! ## The int64 wrap: where the idealized quality is faithful -/

theorem pow2_int64_eq_pow (e : Nat) (he : e ≤ 62) : pow2_int64 e = 2 ^ e := by
  have h1 : (2 : Int) ^ e ≤ 2 ^ 62 := pow_le_pow_right (by norm_num) he
  have h2 : (0 : Int) < 2 ^ e := pow_pos (by norm_num) e
  have h3 : (2 : Int) ^ 63 = 9223372036854775808 := by norm_num
  have h4 : (2 : Int) ^ 64 = 18446744073709551616 := by norm_num
  have h5 : (2 : Int) ^ 62 = 4611686018427387904 := by norm_num
  rw [pow2_int64, int64_wrap, h3, h4]
  rw [h5] at h1
  omega

theorem pow2_int64_zero (e : Nat) (he : 64 ≤ e) : pow2_int64 e = 0 := by
  obtain ⟨d, rfl⟩ : ∃ d, e = 64 + d := ⟨e - 64, by omega⟩
  have h1 : (2 : Int) ^ (64 + d) = 2 ^ 64 * 2 ^ d := pow_add 2 64 d
  have h2 : (0 : Int) < 2 ^ d := pow_pos (by norm_num) d
  have h3 : (2 : Int) ^ 63 = 9223372036854775808 := by norm_num
  have h4 : (2 : Int) ^ 64 = 18446744073709551616 := by norm_num
  rw [pow2_int64, int64_wrap, h1, h3, h4]
  set y := (2 : Int) ^ d
  omega

theorem qualityF_eq_fin (i : Nat) (hi : i ≤ 64) : qualityF i = .fin (quality i) := by
  have he : ((i : Int) - 2).natAbs ≤ 62 := by omega
  have hp := pow2_int64_eq_pow _ he
  have hz : pow2_int64 ((i : Int) - 2).natAbs ≠ 0 := by
    rw [hp]
    exact (pow_pos (by norm_num) _).ne.symm
  rw [qualityF, if_neg hz, hp, quality]
  congr 1
  push_cast
  ring

theorem pow2_int64_at_63 : pow2_int64 63 = -(2 ^ 63) := by
  have h3 : (2 : Int) ^ 63 = 9223372036854775808 := by norm_num
  have h4 : (2 : Int) ^ 64 = 18446744073709551616 := by norm_num
  rw [pow2_int64, int64_wrap, h3, h4]
  decide

theorem qualityF_at_65 : qualityF 65 = .fin (-(1 / 2 ^ 63)) := by
  have he : (((65 : Nat) : Int) - 2).natAbs = 63 := by norm_num
  have hz : pow2_int64 63 ≠ 0 := by
    rw [pow2_int64_at_63]
    norm_num
  rw [qualityF, he, if_neg hz, pow2_int64_at_63]
  congr 1
  push_cast
  norm_num

theorem qualityF_inf_of_ge (i : Nat) (hi : 66 ≤ i) : qualityF i = .inf := by
  have he : 64 ≤ ((i : Int) - 2).natAbs := by omega
  rw [qualityF, if_pos (pow2_int64_zero _ he)]

theorem weights_nonneg (count : Nat) (cav : List Nat) (n : Nat) :
    ∀ x ∈ weights count cav n, (0 : ℚ) ≤ x := by
  intro x hx
  obtain ⟨i, _, rfl⟩ := List.mem_map.mp hx
  have h1 : (0 : ℚ) ≤ (if n = 1 then quality i else 1) := by
    by_cases hn : n = 1
    · simpa [hn] using (quality_pos i).le
    · simp [hn]
  have h2 : (0 : ℚ) ≤ (if i ∈ cav then (1 : ℚ) else 0) := by
    by_cases hi : i ∈ cav <;> simp [hi]
  exact mul_nonneg h1 h2

/-- On a modality with at most 65 slices the int64 power never wraps, so the
code's float64 weight vector is exactly the idealized rational one. -/
theorem weightsF_eq_weights (count : Nat) (cav : List Nat) (n : Nat) (hcount : count ≤ 65) :
    weightsF count cav n = (weights count cav n).map F64.fin := by
  rw [weightsF, weights, List.map_map]
  apply List.map_congr_left
  intro i hi
  have hi64 : i ≤ 64 := by
    have := List.mem_range.mp hi
    omega
  have hq := qualityF_eq_fin i hi64
  by_cases hn : n = 1 <;> by_cases hc : i ∈ cav <;>
    simp [maskMul, hn, hc, hq, Function.comp, mul_one, mul_zero]

theorem any_map_comp {α β : Type} (f : α → β) (p : β → Bool) :
    ∀ l : List α, (l.map f).any p = l.any (p ∘ f)
  | [] => rfl
  | a :: l => by
    simp only [List.map_cons, List.any_cons, any_map_comp f p l]
    rfl

/-- On a modality with at most 65 slices and a nonempty pool, the code's
float64 weight vector is a valid probability-weight vector: no negative,
infinite or NaN entry, and a nonzero sum. -/
theorem pBad_eq_false (count : Nat) (cav : List Nat) (n : Nat) (hcount : count ≤ 65)
    (hne : cav ≠ []) (hlt : ∀ x ∈ cav, x < count) :
    pBad (weightsF count cav n) = false := by
  rw [pBad, weightsF_eq_weights count cav n hcount]
  have hany : ((weights count cav n).map F64.fin).any entryBad = false := by
    rw [any_map_comp, List.any_eq_false]
    intro x hx
    simp only [Function.comp, entryBad, decide_eq_true_eq]
    exact not_lt.mpr (weights_nonneg count cav n x hx)
  have hsum : (((weights count cav n).map F64.fin).map finVal).sum =
      (weights count cav n).sum := by
    rw [List.map_map]
    have hid : (weights count cav n).map (finVal ∘ F64.fin) =
        (weights count cav n).map id :=
      List.map_congr_left (fun x _ => rfl)
    rw [hid, List.map_id]
  rw [hany, hsum, Bool.false_or,
    decide_eq_false (weights_sum_pos count cav n hne hlt).ne.symm]

/-! ## The claims -/

/-- C1: every Sequence accepted into the Sequence Collection has a total slice
count, summed across all its `(round, modality)` entries, equal to the
configured sequence length; and the candidate generator only completes a
candidate at exactly that count, so the internal length assertion never fires
(candidate generation never returns the `assertLen` error). -/
theorem claim1_sequence_length (mk : Int → Rng) (ent : String → Rng) (dl : DataLoader)
    (fuel : Nat) (seed : Int) (seqLen maxS : Nat) (q : ℚ)
    (coll : List (String × List Sequence))
    (hmk : ∀ s, RngValid (mk s)) (hent : ∀ c, RngValid (ent c))
    (h : generate_sequences mk ent dl fuel seed seqLen maxS q = .ok (some coll)) :
    (∀ en ∈ coll, ∀ s ∈ en.2, lenOfValues s.data = seqLen) ∧
    (∀ (g : Rng) (counts : List Nat) (pool : List (List Nat)) (k fuel2 : Nat),
      RngValid g → PoolInv counts pool →
      genCand seqLen maxS counts g fuel2 (initCand pool k) ≠ .error .assertLen) := by
  rw [generate_sequences_def] at h
  constructor
  · intro en hen s hs
    obtain ⟨_, counts, _, hout⟩ := runCases_spec mk ent (seedsOf seed dl.keys) seed seqLen
      maxS (clip01 q * seqLen) dl fuel hmk hent dl.keys coll h en hen
    exact (hout.1 s hs).1
  · intro g counts pool k fuel2 hg hinv hcontra
    obtain ⟨r, hr⟩ := (genCand_spec seqLen maxS counts g hg fuel2 (initCand pool k)
      hinv (Nat.zero_le _)).1
    rw [hcontra] at hr
    exact Except.noConfusion hr

theorem claim1_witness :
    (∀ s : Int, RngValid ((fun _ => demoRng) s)) ∧
    generate_sequences (fun _ => demoRng) (fun _ => demoRng) demoLoader 30 7 5 3 (1/2) =
      .ok (some [("a", [demoSeq])]) ∧
    (∀ en ∈ [("a", [demoSeq])], ∀ s ∈ en.2, lenOfValues s.data = 5) :=
  ⟨fun _ => demoRng_valid, demo_run,
    (claim1_sequence_length (fun _ => demoRng) (fun _ => demoRng) demoLoader 30 7 5 3
      (1/2) [("a", [demoSeq])] (fun _ => demoRng_valid) (fun _ => demoRng_valid)
      demo_run).1⟩

/-- C2: within one case, for every modality, the slice indices across all
accepted Sequences of that case are pairwise distinct: the flattened
per-modality index list over the case's accepted Sequences has no duplicate. -/
theorem claim2_no_modality_reuse (mk : Int → Rng) (ent : String → Rng) (dl : DataLoader)
    (fuel : Nat) (seed : Int) (seqLen maxS : Nat) (q : ℚ)
    (coll : List (String × List Sequence))
    (hmk : ∀ s, RngValid (mk s)) (hent : ∀ c, RngValid (ent c))
    (h : generate_sequences mk ent dl fuel seed seqLen maxS q = .ok (some coll)) :
    ∀ en ∈ coll, ∀ m, ((en.2.map (fun s => modIndices s.data m)).flatten).Nodup := by
  rw [generate_sequences_def] at h
  intro en hen m
  obtain ⟨_, counts, _, hout⟩ := runCases_spec mk ent (seedsOf seed dl.keys) seed seqLen
    maxS (clip01 q * seqLen) dl fuel hmk hent dl.keys coll h en hen
  exact hout.2 m

theorem claim2_witness :
    generate_sequences (fun _ => demoRng) (fun _ => demoRng) demoLoader 30 7 5 3 (1/2) =
      .ok (some [("a", [demoSeq])]) ∧
    (∀ en ∈ [("a", [demoSeq])], ∀ m,
      ((en.2.map (fun s => modIndices s.data m)).flatten).Nodup) :=
  ⟨demo_run,
    claim2_no_modality_reuse (fun _ => demoRng) (fun _ => demoRng) demoLoader 30 7 5 3
      (1/2) [("a", [demoSeq])] (fun _ => demoRng_valid) (fun _ => demoRng_valid) demo_run⟩

/-- C3: with a non-negative seed, the same stable case enumeration, and the
same per-case shapes, two runs produce identical Sequence Collections — even
with different unseeded fallback sources — and the per-case seed is `S + i`
for the case at zero-based position `i` of the enumeration. -/
theorem claim3_determinism (mk : Int → Rng) (ent1 ent2 : String → Rng)
    (dl1 dl2 : DataLoader) (fuel : Nat) (seed : Int) (seqLen maxS : Nat) (q : ℚ)
    (hseed : 0 ≤ seed) (hkeys : dl1.keys = dl2.keys) (hnd : dl1.keys.Nodup)
    (hsh : ∀ c ∈ dl1.keys, dl1.shapes c = dl2.shapes c) :
    generate_sequences mk ent1 dl1 fuel seed seqLen maxS q =
      generate_sequences mk ent2 dl2 fuel seed seqLen maxS q ∧
    (∀ (i : Nat) (c : String), dl1.keys[i]? = some c →
      (seedsOf seed dl1.keys).lookup c = some (seed + i)) := by
  constructor
  · rw [generate_sequences_def, generate_sequences_def, ← hkeys]
    exact runCases_congr mk ent1 ent2 (seedsOf seed dl1.keys) seed seqLen maxS
      (clip01 q * seqLen) dl1 dl2 fuel hseed dl1.keys hsh
  · intro i c hc
    exact lookup_seedsOf seed dl1.keys hnd i c hc

theorem claim3_witness :
    ((0 : Int) ≤ 7) ∧ demoLoader.keys.Nodup ∧
    generate_sequences (fun _ => demoRng) (fun _ => demoRng) demoLoader 30 7 5 3 (1/2) =
      generate_sequences (fun _ => demoRng) (fun _ => zeroRng) demoLoader 30 7 5 3 (1/2) :=
  ⟨by decide, by decide,
    (claim3_determinism (fun _ => demoRng) (fun _ => demoRng) (fun _ => zeroRng)
      demoLoader demoLoader 30 7 5 3 (1/2) (by decide) rfl (by decide)
      (fun c _ => rfl)).1⟩

/-- C4: in a greedy round, the head of the stably sorted batch is the earliest
generated candidate whose quality has minimum absolute distance to the target;
if its quality is strictly below the target the round terminates leaving the
accumulated Sequences unchanged, otherwise its Sequence is appended and its
post-selection pool replaces the case pool. -/
theorem claim4_greedy_selection (seqLen maxS : Nat) (target : ℚ) (counts : List Nat)
    (g : Rng) (caseId : String) (fuel rounds k k2 : Nat) (pool : List (List Nat))
    (acc : List Sequence) (cands : List (ℚ × Sequence × List (List Nat)))
    (best : ℚ × Sequence × List (List Nat))
    (hp : ¬ poolLen pool < seqLen)
    (hbatch : genBatch seqLen maxS counts g caseId fuel 100 k pool = .ok (some (cands, k2)))
    (hhead : (sortCands target cands).head? = some best) :
    best ∈ cands ∧
    (∀ c ∈ cands, |target - best.1| ≤ |target - c.1|) ∧
    firstArgmin target cands = some best ∧
    (best.1 < target →
      genLoop seqLen maxS target counts g caseId fuel (rounds + 1) k pool acc =
        .ok (some acc)) ∧
    (¬ best.1 < target →
      genLoop seqLen maxS target counts g caseId fuel (rounds + 1) k pool acc =
        genLoop seqLen maxS target counts g caseId fuel rounds k2 best.2.2
          (acc ++ [best.2.1])) := by
  obtain ⟨h1, h2, h3⟩ := head_sortCands_spec target cands best hhead
  refine ⟨h1, h2, h3, ?_, ?_⟩
  · intro hlt
    simp only [genLoop, if_neg hp, hbatch, hhead, if_pos hlt]
  · intro hnlt
    simp only [genLoop, if_neg hp, hbatch, hhead, if_neg hnlt]

set_option maxRecDepth 4000 in
theorem claim4_witness :
    (¬ poolLen ([1].map List.range) < 1) ∧
    genBatch 1 1 [1] demoRng "c" 5 100 0 ([1].map List.range) =
      .ok (some (List.replicate 100 demoCand, 200)) ∧
    (sortCands (1/4) (List.replicate 100 demoCand)).head? = some demoCand ∧
    demoCand ∈ List.replicate 100 demoCand :=
  ⟨by decide, by with_unfolding_all decide, by with_unfolding_all decide,
    (claim4_greedy_selection 1 1 (1/4) [1] demoRng "c" 5 0 0 200 ([1].map List.range)
      [] (List.replicate 100 demoCand) demoCand (by decide)
      (by with_unfolding_all decide) (by with_unfolding_all decide)).1⟩

/-- C5: once a case's total remaining slice count is below the sequence
length, the per-case loop terminates at once with its output unchanged; and
an accepted candidate's pool is, per modality, a sublist of the pool it was
generated from — the pool never regrows. -/
theorem claim5_monotonic_exhaustion (seqLen maxS : Nat) (target : ℚ) (counts : List Nat)
    (g : Rng) (caseId : String) (fuel rounds k : Nat) (pool : List (List Nat))
    (acc : List Sequence) (kc fc : Nat) (poolc : List (List Nat)) (c : CandState)
    (hex : poolLen pool < seqLen)
    (hcand : genCand seqLen maxS counts g fc (initCand poolc kc) = .ok (some c)) :
    genLoop seqLen maxS target counts g caseId fuel (rounds + 1) k pool acc =
      .ok (some acc) ∧
    ∀ m, (c.cav.getD m []).Sublist (poolc.getD m []) := by
  constructor
  · rw [genLoop, if_pos hex]
  · exact fun m => genCand_shrinks seqLen maxS counts g fc (initCand poolc kc) c hcand m

theorem claim5_witness :
    poolLen [[]] < 1 ∧
    genCand 1 1 [1] demoRng 5 (initCand ([1].map List.range) 0) =
      .ok (some ⟨2, 1/4, [((0, 0), [0])], [[]], 0, 1⟩) ∧
    (genLoop 1 1 (1/2) [1] demoRng "c" 4 1 0 [[]] [] = .ok (some []) ∧
      ∀ m, (((⟨2, 1/4, [((0, 0), [0])], [[]], 0, 1⟩ : CandState).cav.getD m []).Sublist
        (([1].map List.range).getD m []))) :=
  ⟨by decide, demo_cand,
    claim5_monotonic_exhaustion 1 1 (1/2) [1] demoRng "c" 4 0 0 [[]] [] 0 5
      ([1].map List.range) ⟨2, 1/4, [((0, 0), [0])], [[]], 0, 1⟩ (by decide) demo_cand⟩

/-- C6: one case with one modality of five slices, sequence length 5 and at
most 3 slices per draw (and the default quality preference 1/2): a finished
run accepts exactly one Sequence whose index multiset is `{0, 1, 2, 3, 4}`,
and the case yields no second Sequence. -/
theorem claim6_five_slice_scenario (mk : Int → Rng) (ent : String → Rng) (dl : DataLoader)
    (fuel : Nat) (seed : Int) (c0 : String) (coll : List (String × List Sequence))
    (hmk : ∀ s, RngValid (mk s)) (hent : ∀ c, RngValid (ent c))
    (hkeys : dl.keys = [c0]) (hsh : dl.shapes c0 = some [5])
    (h : generate_sequences mk ent dl fuel seed 5 3 (1/2) = .ok (some coll)) :
    ∃ s, coll = [(c0, [s])] ∧ (↑(allIndices s.data) : Multiset Nat) = ↑(List.range 5) := by
  rw [generate_sequences_def, hkeys] at h
  have hg : RngValid (if 0 ≤ seed then mk (((seedsOf seed [c0]).lookup c0).getD 0)
      else ent c0) := by
    by_cases h0 : 0 ≤ seed
    · rw [if_pos h0]; exact hmk _
    · rw [if_neg h0]; exact hent _
  cases hpc : genLoop 5 3 (clip01 (1/2) * ((5 : Nat) : ℚ)) [5]
      (if 0 ≤ seed then mk (((seedsOf seed [c0]).lookup c0).getD 0) else ent c0)
      c0 fuel fuel 0 ([5].map List.range) [] with
  | error e =>
    simp only [runCases, perCaseRun_some mk ent (seedsOf seed [c0]) seed 5 3
      (clip01 (1/2) * ((5 : Nat) : ℚ)) dl fuel c0 [5] hsh, hpc] at h
    exact Except.noConfusion h
  | ok o =>
    cases o with
    | none =>
      simp only [runCases, perCaseRun_some mk ent (seedsOf seed [c0]) seed 5 3
        (clip01 (1/2) * ((5 : Nat) : ℚ)) dl fuel c0 [5] hsh, hpc] at h
      exact Option.noConfusion (Except.ok.inj h)
    | some seqs =>
      simp only [runCases, perCaseRun_some mk ent (seedsOf seed [c0]) seed 5 3
        (clip01 (1/2) * ((5 : Nat) : ℚ)) dl fuel c0 [5] hsh, hpc] at h
      obtain ⟨s, hs, hmult⟩ := genLoop_five _ c0 fuel fuel 0 hg seqs hpc
      have hcoll : [(c0, seqs)] = coll := by
        have h2 := Except.ok.inj h
        exact Option.some.inj h2
      subst hs
      exact ⟨s, by rw [← hcoll], hmult⟩

theorem claim6_witness :
    demoLoader.keys = ["a"] ∧ demoLoader.shapes "a" = some [5] ∧
    (∃ s, [("a", [demoSeq])] = [("a", [s])] ∧
      (↑(allIndices s.data) : Multiset Nat) = ↑(List.range 5)) :=
  ⟨rfl, by decide,
    claim6_five_slice_scenario (fun _ => demoRng) (fun _ => demoRng) demoLoader 30 7 "a"
      [("a", [demoSeq])] (fun _ => demoRng_valid) (fun _ => demoRng_valid) rfl
      (by decide) demo_run⟩

/-- C7: whenever the current modality still has slices, one iteration records
exactly `clampN` of the rounded normal draw against
`min(available, max_slices_per_mha, seq_len - already_selected)` new indices —
in particular never more than `max_slices_per_mha`, never more than are
available, and never more than still needed. -/
theorem claim7_draw_clamped (seqLen maxS : Nat) (counts : List Nat) (g : Rng)
    (st st2 : CandState) (hg : RngValid g) (hinv : PoolInv counts st.cav)
    (hm : 0 < (st.cav.getD st.m []).length)
    (h : candStep seqLen maxS counts g st = .ok st2) :
    lenOfValues st2.cseq = lenOfValues st.cseq +
      clampN (g.normal st.k) (min (st.cav.getD st.m []).length
        (min maxS (seqLen - lenOfValues st.cseq))) ∧
    lenOfValues st2.cseq - lenOfValues st.cseq ≤ maxS ∧
    lenOfValues st2.cseq - lenOfValues st.cseq ≤ (st.cav.getD st.m []).length ∧
    lenOfValues st2.cseq - lenOfValues st.cseq ≤ seqLen - lenOfValues st.cseq := by
  obtain ⟨hsum, hsup⟩ := candStep_checks seqLen maxS counts g st hinv hm
  rw [candStep_eq_draw seqLen maxS counts g st hm hsum hsup] at h
  have hst2 : st2 = advanceCursor (drawResult seqLen maxS counts g st) :=
    (Except.ok.inj h).symm
  subst hst2
  obtain ⟨hlen, _, _⟩ := sel_facts seqLen maxS counts g st hg hinv
  rw [advanceCursor_cseq, drawResult_cseq, lenOfValues_dictAppend, hlen]
  have hc : clampN (g.normal st.k) (min (st.cav.getD st.m []).length
      (min maxS (seqLen - lenOfValues st.cseq))) ≤
      min (st.cav.getD st.m []).length (min maxS (seqLen - lenOfValues st.cseq)) :=
    clampN_le _ _
  have h1 : min (st.cav.getD st.m []).length (min maxS (seqLen - lenOfValues st.cseq)) ≤
      (st.cav.getD st.m []).length := Nat.min_le_left _ _
  have h2 : min (st.cav.getD st.m []).length (min maxS (seqLen - lenOfValues st.cseq)) ≤
      maxS := le_trans (Nat.min_le_right _ _) (Nat.min_le_left _ _)
  have h3 : min (st.cav.getD st.m []).length (min maxS (seqLen - lenOfValues st.cseq)) ≤
      seqLen - lenOfValues st.cseq := le_trans (Nat.min_le_right _ _) (Nat.min_le_right _ _)
  refine ⟨rfl, by omega, by omega, by omega⟩

theorem claim7_witness :
    (0 < ((initCand ([3].map List.range) 0).cav.getD
      (initCand ([3].map List.range) 0).m []).length) ∧
    candStep 2 1 [3] demoRng (initCand ([3].map List.range) 0) =
      .ok ⟨2, 1/4, [((0, 0), [0])], [[1, 2]], 0, 1⟩ ∧
    lenOfValues ((⟨2, 1/4, [((0, 0), [0])], [[1, 2]], 0, 1⟩ : CandState).cseq) -
      lenOfValues ((initCand ([3].map List.range) 0).cseq) ≤ 1 :=
  ⟨by decide, by with_unfolding_all decide,
    (claim7_draw_clamped 2 1 [3] demoRng (initCand ([3].map List.range) 0)
      ⟨2, 1/4, [((0, 0), [0])], [[1, 2]], 0, 1⟩ demoRng_valid (PoolInv_init [3])
      (by decide) (by with_unfolding_all decide)).2.1⟩

/-- C8 counterexample: at slice index 65 the int64 `np.power` wraps to
`-2^63`, so the code's float64 quality is `-2^-63` and not the claimed
`2^-|65-2|`; from index 66 on the power wraps to zero and the quality is
infinite. -/
theorem claim8_counterexample :
    qualityF 65 ≠ .fin (quality 65) ∧
    qualityF 65 = .fin (-(1 / 2 ^ 63)) ∧
    qualityF 66 = .inf := by
  refine ⟨?_, qualityF_at_65, qualityF_inf_of_ge 66 (le_refl _)⟩
  rw [qualityF_at_65]
  intro hcontra
  have h1 : -(1 / 2 ^ 63 : ℚ) = quality 65 := F64.fin.inj hcontra
  have h2 : quality 65 = 1 / 2 ^ 63 := by
    rw [quality]
    norm_num
  rw [h2] at h1
  norm_num at h1

/-- C8 (amended): the quality of slice `i` equals `2^-|i-2|` exactly for
`i ≤ 64`; at `i = 65` the int64 power wraps and the code's quality is
`-2^-63`; for `i ≥ 66` it wraps to zero and the quality is infinite. A
completed candidate's score is the sum of the qualities of all its selected
indices, and the acceptance target is computed once per run as
`clamp(q, 0, 1) * seq_len` — a quality preference outside `[0, 1]` is
clamped, not an error. -/
theorem claim8_amended (seqLen maxS : Nat) (counts : List Nat) (g : Rng)
    (fuel k : Nat) (pool : List (List Nat)) (c : CandState)
    (hg : RngValid g) (hinv : PoolInv counts pool)
    (h : genCand seqLen maxS counts g fuel (initCand pool k) = .ok (some c)) :
    (∀ i : Nat, i ≤ 64 → qualityF i = .fin (1 / 2 ^ ((i : Int) - 2).natAbs)) ∧
    qualityF 65 = .fin (-(1 / 2 ^ 63)) ∧
    (∀ i : Nat, 66 ≤ i → qualityF i = .inf) ∧
    c.cqual = qualSum (allIndices c.cseq) ∧
    (∀ x : ℚ, (x ≤ 0 → clip01 x = 0) ∧ (1 ≤ x → clip01 x = 1) ∧
      (0 ≤ x → x ≤ 1 → clip01 x = x)) ∧
    (∀ (mk : Int → Rng) (ent : String → Rng) (dl : DataLoader) (fuel2 : Nat) (seed : Int)
      (q : ℚ), generate_sequences mk ent dl fuel2 seed seqLen maxS q =
        runCases mk ent (seedsOf seed dl.keys) seed seqLen maxS (clip01 q * seqLen) dl
          fuel2 dl.keys) := by
  refine ⟨fun i hi => qualityF_eq_fin i hi, qualityF_at_65,
    fun i hi => qualityF_inf_of_ge i hi, ?_, ?_, fun mk ent dl fuel2 seed q => rfl⟩
  · have hq := ((genCand_spec seqLen maxS counts g hg fuel (initCand pool k) hinv
      (Nat.zero_le _)).2 c h).2.2.2.1
    have h0 : (initCand pool k).cqual - qualSum (allIndices (initCand pool k).cseq) = 0 := by
      simp [initCand, allIndices, qualSum]
    rw [h0] at hq
    linarith
  · intro x
    refine ⟨fun hx => ?_, fun hx => ?_, fun h0 h1 => ?_⟩
    · rw [clip01, max_eq_right hx, min_eq_left zero_le_one]
    · rw [clip01, max_eq_left (le_trans zero_le_one hx), min_eq_right hx]
    · rw [clip01, max_eq_left h0, min_eq_left h1]

theorem claim8_witness :
    genCand 1 1 [1] demoRng 5 (initCand ([1].map List.range) 0) =
      .ok (some ⟨2, 1/4, [((0, 0), [0])], [[]], 0, 1⟩) ∧
    ((⟨2, 1/4, [((0, 0), [0])], [[]], 0, 1⟩ : CandState).cqual =
      qualSum (allIndices ((⟨2, 1/4, [((0, 0), [0])], [[]], 0, 1⟩ : CandState).cseq))) :=
  ⟨demo_cand,
    (claim8_amended 1 1 [1] demoRng 5 0 ([1].map List.range)
      ⟨2, 1/4, [((0, 0), [0])], [[]], 0, 1⟩ demoRng_valid (PoolInv_init [1])
      demo_cand).2.2.2.1⟩

/-- C9: if any case's task raises (an internal invariant violation or a Slice
Source lookup failure), the whole `generate_sequences` call raises: no
collection — in particular no partial collection omitting the failed case —
is ever returned; and a missing case raises exactly the lookup failure. -/
theorem claim9_fail_fast (mk : Int → Rng) (ent : String → Rng) (dl : DataLoader)
    (fuel : Nat) (seed : Int) (seqLen maxS : Nat) (q : ℚ) (c : String) (e : GenError)
    (hc : c ∈ dl.keys)
    (he : perCaseRun mk ent (seedsOf seed dl.keys) seed seqLen maxS
      (clip01 q * seqLen) dl fuel c = .error e) :
    (∀ coll, generate_sequences mk ent dl fuel seed seqLen maxS q ≠ .ok (some coll)) ∧
    (dl.shapes c = none → e = .missingCase) := by
  constructor
  · intro coll hcontra
    rw [generate_sequences_def] at hcontra
    exact runCases_error mk ent (seedsOf seed dl.keys) seed seqLen maxS
      (clip01 q * seqLen) dl fuel dl.keys c e hc he coll hcontra
  · intro hnone
    rw [perCaseRun_none mk ent (seedsOf seed dl.keys) seed seqLen maxS
      (clip01 q * seqLen) dl fuel c hnone] at he
    exact (Except.error.inj he).symm

theorem claim9_witness :
    "b" ∈ brokenLoader.keys ∧
    perCaseRun (fun _ => demoRng) (fun _ => demoRng) (seedsOf 7 brokenLoader.keys) 7 5 3
      (clip01 (1/2) * (5 : Nat)) brokenLoader 30 "b" = .error .missingCase ∧
    (∀ coll, generate_sequences (fun _ => demoRng) (fun _ => demoRng) brokenLoader 30 7
      5 3 (1/2) ≠ .ok (some coll)) :=
  ⟨by decide, by with_unfolding_all decide,
    (claim9_fail_fast (fun _ => demoRng) (fun _ => demoRng) brokenLoader 30 7 5 3 (1/2)
      "b" .missingCase (by decide) (by with_unfolding_all decide)).1⟩

/-- C10 counterexample: in a case with one modality of 66 slices and
`max_slices_per_mha = 1`, the first iteration draws `n = 1`, and the float64
weight vector the source then builds over the full pool contains the negative
entry `-2^-63` at index 65 (the wrapped int64 power), so `m_p / m_p.sum()` is
not a valid probability vector and `Generator.choice` raises — the draw does
not succeed; the idealized all-positive weight vector differs from the
code's. -/
theorem claim10_counterexample :
    clampN (demoRng.normal 0) (min 66 (min 1 1)) = 1 ∧
    F64.fin (-(1 / 2 ^ 63)) ∈ weightsF 66 (List.range 66) 1 ∧
    pBad (weightsF 66 (List.range 66) 1) = true ∧
    weightsF 66 (List.range 66) 1 ≠ (weights 66 (List.range 66) 1).map F64.fin := by
  have hmem : F64.fin (-(1 / 2 ^ 63)) ∈ weightsF 66 (List.range 66) 1 := by
    rw [weightsF]
    refine List.mem_map.mpr ⟨65, List.mem_range.mpr (by norm_num), ?_⟩
    have hd : decide ((65 : Nat) ∈ List.range 66) = true :=
      decide_eq_true (List.mem_range.mpr (by norm_num))
    rw [if_pos rfl, hd, qualityF_at_65]
    rfl
  have hany : (weightsF 66 (List.range 66) 1).any entryBad = true := by
    rw [List.any_eq_true]
    exact ⟨_, hmem, decide_eq_true (by norm_num : (-(1 / 2 ^ 63) : ℚ) < 0)⟩
  refine ⟨by decide, hmem, ?_, ?_⟩
  · rw [pBad, hany, Bool.true_or]
  · intro hcontra
    have hgood : ((weights 66 (List.range 66) 1).map F64.fin).any entryBad = false := by
      rw [any_map_comp, List.any_eq_false]
      intro x hx
      simp only [Function.comp, entryBad, decide_eq_true_eq]
      exact not_lt.mpr (weights_nonneg 66 (List.range 66) 1 x hx)
    rw [hcontra, hgood] at hany
    exact Bool.noConfusion hany

/-- C10 (amended): provided the current modality has at most 65 slices — so
the int64 power never wraps and the code's float64 weight vector is exactly
the idealized rational one — every random draw step is well defined: a
modality is only sampled when it has an unconsumed index (otherwise the
iteration just advances the cursor), the weight vector has no negative,
infinite or NaN entry and a strictly positive sum (so `m_p / m_p.sum()` never
divides by zero), the requested count never exceeds the number of
nonzero-weight indices, and the iteration never raises the `badChoice` error —
it always produces a successor state. -/
theorem claim10_amended (seqLen maxS : Nat) (counts : List Nat) (g : Rng)
    (st : CandState) (hg : RngValid g) (hinv : PoolInv counts st.cav)
    (hcount : counts.getD st.m 0 ≤ 65) :
    (0 < (st.cav.getD st.m []).length →
      weightsF (counts.getD st.m 0) (st.cav.getD st.m [])
          (clampN (g.normal st.k) (min (st.cav.getD st.m []).length
            (min maxS (seqLen - lenOfValues st.cseq)))) =
        (weights (counts.getD st.m 0) (st.cav.getD st.m [])
          (clampN (g.normal st.k) (min (st.cav.getD st.m []).length
            (min maxS (seqLen - lenOfValues st.cseq))))).map F64.fin ∧
      pBad (weightsF (counts.getD st.m 0) (st.cav.getD st.m [])
        (clampN (g.normal st.k) (min (st.cav.getD st.m []).length
          (min maxS (seqLen - lenOfValues st.cseq))))) = false ∧
      0 < (weights (counts.getD st.m 0) (st.cav.getD st.m [])
        (clampN (g.normal st.k) (min (st.cav.getD st.m []).length
          (min maxS (seqLen - lenOfValues st.cseq))))).sum ∧
      clampN (g.normal st.k) (min (st.cav.getD st.m []).length
          (min maxS (seqLen - lenOfValues st.cseq))) ≤
        (support (List.range (counts.getD st.m 0))
          (weights (counts.getD st.m 0) (st.cav.getD st.m [])
            (clampN (g.normal st.k) (min (st.cav.getD st.m []).length
              (min maxS (seqLen - lenOfValues st.cseq)))))).length) ∧
    (¬ 0 < (st.cav.getD st.m []).length →
      candStep seqLen maxS counts g st = .ok (advanceCursor st)) ∧
    candStep seqLen maxS counts g st ≠ .error .badChoice ∧
    (∃ st2, candStep seqLen maxS counts g st = .ok st2) := by
  have hnever := candStep_never_fails seqLen maxS counts g st hinv
  refine ⟨?_, ?_, ?_, hnever⟩
  · intro hm
    have hne : st.cav.getD st.m [] ≠ [] := by
      intro hnil
      rw [hnil] at hm
      exact Nat.lt_irrefl 0 hm
    have hlt := (hinv.2 st.m).2
    exact ⟨weightsF_eq_weights _ _ _ hcount, pBad_eq_false _ _ _ hcount hne hlt,
      weights_sum_pos _ _ _ hne hlt,
      Nat.le_of_not_lt (candStep_checks seqLen maxS counts g st hinv hm).2⟩
  · intro hm
    exact candStep_eq_skip seqLen maxS counts g st hm
  · intro hcontra
    obtain ⟨st2, heq⟩ := hnever
    rw [heq] at hcontra
    exact Except.noConfusion hcontra

theorem claim10_witness :
    RngValid demoRng ∧
    ([3].getD (initCand ([3].map List.range) 0).m 0 ≤ 65) ∧
    candStep 2 1 [3] demoRng (initCand ([3].map List.range) 0) ≠ .error .badChoice ∧
    (∃ st2, candStep 2 1 [3] demoRng (initCand ([3].map List.range) 0) = .ok st2) :=
  ⟨demoRng_valid, by decide,
    (claim10_amended 2 1 [3] demoRng (initCand ([3].map List.range) 0) demoRng_valid
      (PoolInv_init [3]) (by decide)).2.2.1,
    (claim10_amended 2 1 [3] demoRng (initCand ([3].map List.range) 0) demoRng_valid
      (PoolInv_init [3]) (by decide)).2.2.2⟩

end Sequencer
